import Mathlib

/-!
# A shallow embedding of `fetch_mzstatic_covers.py`

This file models the artwork-resolution pipeline of the repository's single
source file `fetch_mzstatic_covers.py` and proves properties of the model.

Conventions used throughout:
* Python strings are `String`/`List Char`; Python floats are embedded as exact
  rationals `ℚ` (the float literals `0.7`, `0.3`, `0.55`, `1e-6`, … appearing
  in the source become the corresponding rationals).
* Network I/O is modelled by oracles: a list of per-attempt outcomes for each
  HTTP loop.  Side effects (requests, sleeps, file writes) are returned as an
  explicit event trace.
* `difflib.SequenceMatcher` (standard library, not part of the repository) is
  modelled from its algorithm with `isjunk=None`; see `findLongestMatch`.
-/

namespace Mz

/-- `PROBE_SIZES` (source lines 52-68): preferred probe sizes, largest first;
mzstatic caps to the master size. -/
def PROBE_SIZES : List String :=
  ["100000x100000", "20000x20000", "10000x10000", "8000x8000", "6000x6000",
   "5000x5000", "4000x4000", "3000x3000", "2500x2500", "2000x2000",
   "1500x1500", "1200x1200", "1000x1000", "800x800", "600x600"]

/-- The numeric edge lengths of the `PROBE_SIZES` entries, in the same order
(used to state that the probed sizes are strictly descending). -/
def probeSizeNums : List Nat :=
  [100000, 20000, 10000, 8000, 6000, 5000, 4000, 3000, 2500, 2000,
   1500, 1200, 1000, 800, 600]

/-- Render a square size `n` as the `"<n>x<n>"` token used in `PROBE_SIZES`. -/
def sizeToken (n : Nat) : String := Nat.repr n ++ "x" ++ Nat.repr n

/-! ## Text normalization (`normalize_text`, source lines 97-101) -/

/-- Python's `\s` class, restricted to the characters relevant here. -/
def isWsChar (c : Char) : Bool := c.isWhitespace

/-- Python's `\w` class (`[a-zA-Z0-9_]` over the ASCII inputs this tool
compares; the Unicode extension of `\w` is not modelled). -/
def isWordChar (c : Char) : Bool := c.isAlphanum || c = '_'

/-- Python `str.strip()`: drop leading and trailing whitespace. -/
def stripChars (cs : List Char) : List Char :=
  ((cs.dropWhile isWsChar).reverse.dropWhile isWsChar).reverse

/-- `re.sub(r"\s+", " ", s)`: every maximal whitespace run becomes a single
space.  `prevWs` records whether the previous character was whitespace, so
only the first character of a run emits the space. -/
def collapseWs (prevWs : Bool) : List Char → List Char
  | [] => []
  | c :: cs =>
    if isWsChar c then
      if prevWs then collapseWs true cs else ' ' :: collapseWs true cs
    else c :: collapseWs false cs

/-- `normalize_text` (source lines 97-101): lowercase, strip, collapse inner
whitespace, delete everything that is neither a word character nor
whitespace. -/
def normalize_text (s : String) : String :=
  let cs := s.data.map Char.toLower
  let cs := stripChars cs
  let cs := collapseWs false cs
  String.mk (cs.filter (fun c => isWordChar c || isWsChar c))

/-! ## `difflib.SequenceMatcher` (used by `similarity`, source lines 104-107)

The source calls `difflib.SequenceMatcher(None, a_n, b_n).ratio()`.  We model
the stdlib algorithm directly: `b2j` occurrence lists, the `find_longest_match`
chain scan with its two extension loops, the recursive `get_matching_blocks`
split, and `ratio = 2*M/T`.  With `isjunk=None` the junk set is empty, so the
two junk-extension loops of `find_longest_match` never fire and are omitted;
the `autojunk` popular-entry pruning (which only affects `b2j` when
`len(b) >= 200`) is likewise not modelled.  The pruning cannot change the
value on identical sequences — popular entries are not in `bjunk`, so the
extension loops (which only test `isbjunk`) recover any pruned diagonal
match, and difflib's own documentation of `ratio` states that it is `1.0`
exactly when the sequences are identical. -/

/-- Ascending list of positions of `c` in `b` (an entry of difflib's `b2j`). -/
def indicesOf (c : Char) (b : List Char) : List Nat :=
  (List.range b.length).filter (fun j => b.getD j ' ' = c)

/-- A match candidate `(besti, bestj, bestsize)` of `find_longest_match`. -/
structure FlmSt where
  besti : Nat
  bestj : Nat
  bestsize : Nat
  deriving DecidableEq

/-- One row (fixed `i`) of the `find_longest_match` chain scan: iterate over
the ascending occurrence list `js` of `a[i]` in `b`, skipping (`continue`)
positions below `blo` and stopping (`break`) at the first position at or above
`bhi`.  `j2old` is the previous row's chain table (`j2len`), `new` the table
being built (`newj2len`); a missing key reads as `0`, and `j2old` at `j - 1`
for `j = 0` is Python's `j2len.get(-1, 0) = 0`.  The Python `i - k + 1` /
`j - k + 1` are computed here as `i + 1 - k` / `j + 1 - k`, the same value
since a chain through row `i` and column `j` has `k ≤ i + 1` and `k ≤ j + 1`. -/
def flmRow (blo bhi i : Nat) (j2old : Nat → Nat) :
    List Nat → (Nat → Nat) → FlmSt → ((Nat → Nat) × FlmSt)
  | [], new, st => (new, st)
  | j :: js, new, st =>
    if j < blo then flmRow blo bhi i j2old js new st
    else if bhi ≤ j then (new, st)
    else
      let k := (if j = 0 then 0 else j2old (j - 1)) + 1
      let new' : Nat → Nat := fun j' => if j' = j then k else new j'
      let st' := if st.bestsize < k then ⟨i + 1 - k, j + 1 - k, k⟩ else st
      flmRow blo bhi i j2old js new' st'

/-- The outer `for i in range(alo, ahi)` loop of `find_longest_match`:
each row starts a fresh `newj2len` table and reads the previous row's. -/
def flmRows (a b : List Char) (blo bhi : Nat) :
    List Nat → (Nat → Nat) → FlmSt → FlmSt
  | [], _, st => st
  | i :: is, j2len, st =>
    let r := flmRow blo bhi i j2len (indicesOf (a.getD i ' ') b) (fun _ => 0) st
    flmRows a b blo bhi is r.1 r.2

/-- `find_longest_match`'s first extension loop: extend the best match
downwards while both ends stay above `alo`/`blo` and the characters match.
`fuel` bounds the iteration; each step decreases `besti`, so `fuel = besti`
suffices. -/
def extendLower (a b : List Char) (alo blo : Nat) : Nat → FlmSt → FlmSt
  | 0, st => st
  | fuel + 1, st =>
    if alo < st.besti ∧ blo < st.bestj ∧
        a.getD (st.besti - 1) ' ' = b.getD (st.bestj - 1) ' ' then
      extendLower a b alo blo fuel ⟨st.besti - 1, st.bestj - 1, st.bestsize + 1⟩
    else st

/-- `find_longest_match`'s second extension loop: extend the best match
upwards while both ends stay below `ahi`/`bhi` and the characters match.
Each step increases `besti + bestsize`, which stays below `ahi`, so
`fuel = ahi` suffices. -/
def extendUpper (a b : List Char) (ahi bhi : Nat) : Nat → FlmSt → FlmSt
  | 0, st => st
  | fuel + 1, st =>
    if st.besti + st.bestsize < ahi ∧ st.bestj + st.bestsize < bhi ∧
        a.getD (st.besti + st.bestsize) ' ' = b.getD (st.bestj + st.bestsize) ' ' then
      extendUpper a b ahi bhi fuel ⟨st.besti, st.bestj, st.bestsize + 1⟩
    else st

/-- `difflib.SequenceMatcher.find_longest_match` on `a[alo:ahi]` vs
`b[blo:bhi]` (empty junk set: the two junk-extension loops never fire). -/
def findLongestMatch (a b : List Char) (alo ahi blo bhi : Nat) : FlmSt :=
  let st := flmRows a b blo bhi (List.range' alo (ahi - alo)) (fun _ => 0) ⟨alo, blo, 0⟩
  let st := extendLower a b alo blo st.besti st
  extendUpper a b ahi bhi ahi st

/-- The recursive split of `get_matching_blocks` (difflib uses an explicit
queue; the traversal order does not affect the collected blocks).  `fuel`
bounds the recursion depth; each level of the real recursion shrinks the
`a`-range, so `a.length + b.length + 1` suffices for the top-level call. -/
def matchingBlocksGo (a b : List Char) : Nat → Nat → Nat → Nat → Nat → List FlmSt
  | 0, _, _, _, _ => []
  | fuel + 1, alo, ahi, blo, bhi =>
    let m := findLongestMatch a b alo ahi blo bhi
    if m.bestsize = 0 then []
    else
      matchingBlocksGo a b fuel alo m.besti blo m.bestj ++
        m :: matchingBlocksGo a b fuel (m.besti + m.bestsize) ahi (m.bestj + m.bestsize) bhi

/-- `get_matching_blocks` without the `(la, lb, 0)` terminator (which
contributes no matched characters) and without the adjacent-block merge
(which preserves the total matched count used by `ratio`). -/
def matchingBlocks (a b : List Char) : List FlmSt :=
  matchingBlocksGo a b (a.length + b.length + 1) 0 a.length 0 b.length

/-- `SequenceMatcher.ratio() = 2*M/T` where `M` is the total size of the
matching blocks and `T` the total length; difflib returns `1.0` when `T = 0`. -/
def ratioQ (a b : List Char) : ℚ :=
  let m : Nat := ((matchingBlocks a b).map FlmSt.bestsize).sum
  if a.length + b.length = 0 then 1 else (2 * m : ℚ) / ((a.length : ℚ) + (b.length : ℚ))

/-- `similarity` (source lines 104-107): the ratio of the normalized texts. -/
def similarity (a b : String) : ℚ :=
  ratioQ (normalize_text a).data (normalize_text b).data

/-! ## `best_album_match` (source lines 110-143) -/

/-- The fields of an iTunes Search result record that the program reads.
A Python dict key that may be absent is an `Option`. -/
structure ITunesRec where
  wrapperType : Option String
  collectionType : Option String
  collectionName : Option String
  artistName : Option String
  artworkUrl100 : Option String
  deriving DecidableEq

/-- `kind_ok` (source line 123). -/
def kind_ok (r : ITunesRec) : Bool :=
  (r.collectionType = some "Album") || (r.wrapperType = some "collection")

/-- `entity_ok` (source line 124): the three fields are present. -/
def entity_ok (r : ITunesRec) : Bool :=
  r.collectionName.isSome && r.artistName.isSome && r.artworkUrl100.isSome

/-- A record that passes the `kind_ok and entity_ok` filter of
`best_album_match` (a "surviving" record). -/
def surviving (r : ITunesRec) : Bool := kind_ok r && entity_ok r

/-- `alb_score` of a record (source lines 128-130). -/
def alb_score_of (album : String) (r : ITunesRec) : ℚ :=
  similarity album (r.collectionName.getD "")

/-- `art_score` of a record (source lines 129-131). -/
def art_score_of (artist : String) (r : ITunesRec) : ℚ :=
  similarity artist (r.artistName.getD "")

/-- `score = 0.7 * alb_score + 0.3 * art_score` (source line 132). -/
def score_of (artist album : String) (r : ITunesRec) : ℚ :=
  7/10 * alb_score_of album r + 3/10 * art_score_of artist r

/-- Scan state of `best_album_match`: the current best record together with
its stored `_alb_score` annotation, and `best_score` (initially `-1.0`). -/
structure MatchSt where
  best : Option (ITunesRec × ℚ)
  best_score : ℚ
  deriving DecidableEq

/-- The loop body of `best_album_match` (source lines 122-139): skip
non-surviving records; otherwise take the record when its score is strictly
higher, or within `1e-6` with a strictly higher `alb_score` than the stored
`_alb_score` of the incumbent (`0` when there is none). -/
def bmStep (artist album : String) (st : MatchSt) (r : ITunesRec) : MatchSt :=
  if surviving r then
    let alb_score := alb_score_of album r
    let score := score_of artist album r
    if st.best_score < score ∨
        (|score - st.best_score| < 1/1000000 ∧
          (match st.best with | some p => p.2 | none => 0) < alb_score) then
      ⟨some (r, alb_score), score⟩
    else st
  else st

/-- `best_album_match` (source lines 110-143): scan all records, then return
the final best record iff its score reached `min_score`. -/
def best_album_match (results : List ITunesRec) (artist album : String)
    (min_score : ℚ) : Option ITunesRec :=
  let st := results.foldl (bmStep artist album) ⟨none, -1⟩
  match st.best with
  | some p => if min_score ≤ st.best_score then some p.1 else none
  | none => none

/-! ## `build_upscaled_urls` (source lines 146-162)

The source matches `r"/(\d{2,5}x\d{2,5})(bb)?(-\d+)?\.(jpg|png)$"` with
`re.IGNORECASE` against the URL.  Because the pattern is anchored at the end
and none of its pieces can contain `'/'`, a match can only start at the last
slash of the URL, and `\d{2,5}` against a maximal digit run succeeds exactly
when the run's length is between 2 and 5 (matching fewer digits leaves the
next character a digit where `x` or the suffix is required).  The parser below
implements exactly that reading. -/

/-- Split at the last `'/'`: `cs = base ++ '/' :: seg` with `'/' ∉ seg`. -/
def splitLastSlash (cs : List Char) : Option (List Char × List Char) :=
  let rev := cs.reverse
  let seg := rev.takeWhile (fun c => c ≠ '/')
  match rev.dropWhile (fun c => c ≠ '/') with
  | _ :: base => some (base.reverse, seg.reverse)
  | [] => none

def isDigitChar (c : Char) : Bool := c.isDigit

/-- The optional `(bb)?` group, case-insensitively, preserving the original
characters (the source re-emits `m.group(2)` verbatim). -/
def takeBB : List Char → (List Char × List Char)
  | b1 :: b2 :: rest =>
    if (b1 = 'b' ∨ b1 = 'B') ∧ (b2 = 'b' ∨ b2 = 'B') then ([b1, b2], rest)
    else ([], b1 :: b2 :: rest)
  | l => ([], l)

/-- The optional `(-\d+)?` quality group. -/
def takeQual : List Char → (List Char × List Char)
  | '-' :: rest =>
    let d := rest.takeWhile isDigitChar
    if d.isEmpty then ([], '-' :: rest)
    else ('-' :: d, rest.dropWhile isDigitChar)
  | l => ([], l)

def lowerList (cs : List Char) : List Char := cs.map Char.toLower

/-- The `\.(jpg|png)$` tail: a dot, then a case-insensitive `jpg`/`png`
running to the end of the string (returned verbatim, as `m.group(4)`). -/
def takeExt : List Char → Option (List Char)
  | '.' :: e =>
    if lowerList e = "jpg".data ∨ lowerList e = "png".data then some e else none
  | _ => none

/-- Parse the final path segment against
`(\d{2,5}x\d{2,5})(bb)?(-\d+)?\.(jpg|png)` (to the end).  Returns the
`(bb, quality, ext)` groups; the size group itself is always replaced. -/
def parseSizeSeg (seg : List Char) : Option (List Char × List Char × List Char) :=
  let d1 := seg.takeWhile isDigitChar
  let r1 := seg.dropWhile isDigitChar
  if 2 ≤ d1.length ∧ d1.length ≤ 5 then
    match r1 with
    | x :: r2 =>
      if x = 'x' ∨ x = 'X' then
        let d2 := r2.takeWhile isDigitChar
        let r3 := r2.dropWhile isDigitChar
        if 2 ≤ d2.length ∧ d2.length ≤ 5 then
          let bb := takeBB r3
          let q := takeQual bb.2
          match takeExt q.2 with
          | some e => some (bb.1, q.1, e)
          | none => none
        else none
      else none
    | [] => none
  else none

/-- The whole regex match of `build_upscaled_urls` (source line 151):
`some (base, bb, q, ext)` when the URL ends in a size segment, where `base`
is `artwork_url[: m.start(1) - 1]`, the part before the last slash. -/
def matchArtTail (cs : List Char) : Option (List Char × List Char × List Char × List Char) :=
  match splitLastSlash cs with
  | some (base, seg) =>
    match parseSizeSeg seg with
    | some (bb, q, e) => some (base, bb, q, e)
    | none => none
  | none => none

/-- Python `s.endswith(t)`. -/
def strEndsWith (tail s : String) : Bool := tail.data.isSuffixOf s.data

/-- `build_upscaled_urls` (source lines 146-162). -/
def build_upscaled_urls (artwork_url : String) : List String :=
  match matchArtTail artwork_url.data with
  | none =>
    let ext := if strEndsWith ".png" (String.mk (lowerList artwork_url.data))
               then "png" else "jpg"
    PROBE_SIZES.map (fun sz => artwork_url ++ "/" ++ sz ++ "." ++ ext)
  | some (base, bb, q, e) =>
    PROBE_SIZES.map (fun sz =>
      String.mk base ++ "/" ++ sz ++ String.mk bb ++ String.mk q ++ "." ++ String.mk e)

/-! ## Small helpers shared by the orchestration code -/

/-- Python's substring test `needle in haystack`. -/
def containsSub (needle : List Char) : List Char → Bool
  | [] => needle.isEmpty
  | c :: rest => needle.isPrefixOf (c :: rest) || containsSub needle rest

/-- `derive_extension_from_content_type` (source lines 165-169). -/
def derive_extension_from_content_type (ct : String) : String :=
  if containsSub "png".data (lowerList ct.data) then ".png" else ".jpg"

/-- The cover files present in one album directory. -/
structure AlbumFs where
  hasJpg : Bool
  hasPng : Bool
  deriving DecidableEq

/-- `album_has_cover` (source lines 172-177): `cover.jpg` is checked before
`cover.png`. -/
def album_has_cover (fs : AlbumFs) : Option String :=
  if fs.hasJpg then some "cover.jpg"
  else if fs.hasPng then some "cover.png"
  else none

/-! ## `is_disc_subfolder` (source lines 71-82) -/

/-- Drop a case-insensitive literal, returning the rest on success. -/
def dropLitCI : List Char → List Char → Option (List Char)
  | [], cs => some cs
  | l :: ls, c :: cs => if c.toLower = l.toLower then dropLitCI ls cs else none
  | _ :: _, [] => none

/-- `\s*`. -/
def dropWs (cs : List Char) : List Char := cs.dropWhile isWsChar

/-- `\d+$`: the rest is a nonempty run of digits. -/
def digitsEnd (cs : List Char) : Bool := !cs.isEmpty && cs.all isDigitChar

/-- `\[\d+\]$`: a bracketed nonempty run of digits ending the string. -/
def bracketDigitsEnd : List Char → Bool
  | '[' :: rest =>
    let d := rest.takeWhile isDigitChar
    !d.isEmpty && rest.dropWhile isDigitChar == [']']
  | _ => false

/-- `is_disc_subfolder`: strip the name, then try the five anchored
`DISC_FOLDER_PATTERNS` (`CD \d+`, `Disc \d+`, `Digital Media \d+`,
`Digital Media [\d+]`, `[\d+]`, all with `\s*` gaps and `IGNORECASE`). -/
def is_disc_subfolder (name : String) : Bool :=
  let cs := stripChars name.data
  let pat1 := match dropLitCI "cd".data cs with
    | some r => digitsEnd (dropWs r)
    | none => false
  let pat2 := match dropLitCI "disc".data cs with
    | some r => digitsEnd (dropWs r)
    | none => false
  let pat34 := match dropLitCI "digital".data cs with
    | some r =>
      match dropLitCI "media".data (dropWs r) with
      | some r2 => digitsEnd (dropWs r2) || bracketDigitsEnd (dropWs r2)
      | none => false
    | none => false
  pat1 || pat2 || pat34 || bracketDigitsEnd cs

/-! ## The network model

HTTP traffic is modelled by oracles listing the outcome of each request a
retry loop would issue; effects are collected in an event trace.  The
`Pacer` (source lines 180-198) sleeps for a wall-clock-dependent amount, so
its wait is recorded as an event carrying only the pacing key. -/

/-- Observable effects of the pipeline, in program order. -/
inductive Ev
  | paceWait (key : String)
  | apiGet
  | cdnGet (url : String)
  | sleep (seconds : ℚ)
  | fileWrite (name : String)
  | fileReplace (name : String)
  | fileDelete (name : String)
  deriving DecidableEq

/-- A transient network exception (`requests.Timeout` / `ConnectionError`);
the tag distinguishes distinct exception objects. -/
inductive NetExc
  | timeout (tag : ℕ)
  | connError (tag : ℕ)
  deriving DecidableEq

/-- Rendering of `str(e)` for the `Network error:` messages (modelled; the
exact text only feeds the keyword scan of `main`). -/
def netExcStr : NetExc → String
  | .timeout n => "Timeout " ++ Nat.repr n
  | .connError n => "ConnectionError " ++ Nat.repr n

/-- `r.status_code in (403, 429) or 500 <= r.status_code < 600`
(source lines 225 and 279). -/
def retryable_status (c : ℕ) : Bool := c = 403 || c = 429 || (500 ≤ c && c < 600)

/-- The delay chosen by the retry branches: `float(retry_after)` when the
`Retry-After` header is present and parses as a float, else
`backoff ** attempt` (source lines 226-233 and 282-288).  The header is
`some (some v)` when present and parseable, `some none` when present but
unparseable (`ValueError`), `none` when absent. -/
def retry_delay (retryAfter : Option (Option ℚ)) (backoff : ℚ) (attempt : ℕ) : ℚ :=
  match retryAfter with
  | some (some v) => v
  | some none => backoff ^ attempt
  | none => backoff ^ attempt

/-- The API backoff sleep
`time.sleep(min(30.0, delay) + random.uniform(0.0, max(0.05, jitter)))`
(source lines 234 and 242); `u` is the value drawn by `random.uniform`. -/
def api_retry_sleep (retryAfter : Option (Option ℚ)) (backoff : ℚ) (attempt : ℕ)
    (u : ℚ) : ℚ :=
  min 30 (retry_delay retryAfter backoff attempt) + u

/-- The CDN backoff sleep, identical but capped at `60.0`
(source lines 289 and 296). -/
def cdn_retry_sleep (retryAfter : Option (Option ℚ)) (backoff : ℚ) (attempt : ℕ)
    (u : ℚ) : ℚ :=
  min 60 (retry_delay retryAfter backoff attempt) + u

/-- One attempt's outcome inside `api_search_with_retries`. -/
inductive ApiAttempt
  | ok (results : List ITunesRec)
  | httpStatus (code : ℕ) (retryAfter : Option (Option ℚ))
  | exc (e : NetExc)
  deriving DecidableEq

/-- What `api_search_with_retries` delivers to its caller. -/
inductive ApiOutcome
  | results (rs : List ITunesRec)
  | httpError (code : ℕ)
  | netError (e : NetExc)
  deriving DecidableEq

/-- The `for attempt in range(max_retries)` loop of `api_search_with_retries`
(source lines 216-247): 200 parses and returns; 403/429/5xx sleeps and
retries (honoring `Retry-After`); other statuses `raise_for_status()` (an
error for codes ≥ 400, otherwise `return []`); timeouts/connection errors
record `last_exc`, sleep and retry.  When the attempts run out, the last
recorded exception is re-raised if there is one, else `[]` is returned
(source lines 244-247).  One oracle entry per attempt, so the length of
`attempts` plays the role of `max_retries`; `u` gives each attempt's jitter
draw. -/
def api_loop (backoff : ℚ) (u : ℕ → ℚ) :
    List ApiAttempt → ℕ → Option NetExc → ApiOutcome × List Ev
  | [], _, lastExc =>
    (match lastExc with | some e => .netError e | none => .results [], [])
  | .ok rs :: _, _, _ => (.results rs, [.paceWait "itunes_api", .apiGet])
  | .httpStatus c ra :: rest, attempt, lastExc =>
    if retryable_status c then
      let r := api_loop backoff u rest (attempt + 1) lastExc
      (r.1, .paceWait "itunes_api" :: .apiGet ::
        .sleep (api_retry_sleep ra backoff attempt (u attempt)) :: r.2)
    else if 400 ≤ c then (.httpError c, [.paceWait "itunes_api", .apiGet])
    else (.results [], [.paceWait "itunes_api", .apiGet])
  | .exc e :: rest, attempt, _ =>
    let r := api_loop backoff u rest (attempt + 1) (some e)
    (r.1, .paceWait "itunes_api" :: .apiGet ::
      .sleep (api_retry_sleep none backoff attempt (u attempt)) :: r.2)

/-- `api_search_with_retries` (source lines 201-247). -/
def api_search_with_retries (backoff : ℚ) (u : ℕ → ℚ)
    (attempts : List ApiAttempt) : ApiOutcome × List Ev :=
  api_loop backoff u attempts 0 none

/-- One attempt's outcome inside `request_cdn_stream`.  `reqExc` is a
`requests.RequestException` other than `Timeout`/`ConnectionError`. -/
inductive CdnAttempt
  | ok (contentType : String)
  | httpStatus (code : ℕ) (retryAfter : Option (Option ℚ))
  | exc (e : NetExc)
  | reqExc
  deriving DecidableEq

/-- `request_cdn_stream` (source lines 250-301): a 200 response is returned
when its content type contains `"image"` and is terminal `None` otherwise;
403/429/5xx sleeps (capped at 60s, honoring `Retry-After`) and retries;
other statuses and other request exceptions are terminal `None`;
timeouts/connection errors sleep and retry; exhausting the attempts yields
`None`.  Returns the content type of the accepted streamed response. -/
def cdn_loop (url : String) (backoff : ℚ) (u : ℕ → ℚ) :
    List CdnAttempt → ℕ → Option String × List Ev
  | [], _ => (none, [])
  | .ok ct :: _, _ =>
    if containsSub "image".data (lowerList ct.data) then
      (some ct, [.paceWait "mzstatic_cdn", .cdnGet url])
    else (none, [.paceWait "mzstatic_cdn", .cdnGet url])
  | .httpStatus c ra :: rest, attempt =>
    if retryable_status c then
      let r := cdn_loop url backoff u rest (attempt + 1)
      (r.1, .paceWait "mzstatic_cdn" :: .cdnGet url ::
        .sleep (cdn_retry_sleep ra backoff attempt (u attempt)) :: r.2)
    else (none, [.paceWait "mzstatic_cdn", .cdnGet url])
  | .exc _ :: rest, attempt =>
    let r := cdn_loop url backoff u rest (attempt + 1)
    (r.1, .paceWait "mzstatic_cdn" :: .cdnGet url ::
      .sleep (cdn_retry_sleep none backoff attempt (u attempt)) :: r.2)
  | .reqExc :: _, _ => (none, [.paceWait "mzstatic_cdn", .cdnGet url])

/-- `pick_largest_working_art_stream` (source lines 304-333): probe the
candidate URLs in order until one stream is accepted; `oracle i` lists the
CDN attempts for candidate `i` and `u i` its jitter draws.  Returns the
winning URL together with `ct = resp.headers.get("Content-Type", "").lower()`
(source line 331). -/
def pick_loop (backoff : ℚ) (u : ℕ → ℕ → ℚ) (oracle : ℕ → List CdnAttempt) :
    List String → ℕ → Option (String × String) × List Ev
  | [], _ => (none, [])
  | cand :: cands, i =>
    let r := cdn_loop cand backoff (u i) (oracle i) 0
    match r.1 with
    | some ct => (some (cand, String.mk (lowerList ct.data)), r.2)
    | none =>
      let rest := pick_loop backoff u oracle cands (i + 1)
      (rest.1, r.2 ++ rest.2)

/-- `next((s for s in PROBE_SIZES if f"/{s}" in url), "unknown")`
(source line 508). -/
def size_info_of (url : String) : String :=
  match PROBE_SIZES.find? (fun s => containsSub ("/" ++ s).data url.data) with
  | some s => s
  | none => "unknown"

/-- The oracles feeding one `process_album` call: attempt outcomes for the
two search passes, per-candidate CDN attempts, jitter draws, the backoff
base, and whether streaming the accepted response to disk succeeds. -/
structure NetOracle where
  api1 : List ApiAttempt
  api2 : List ApiAttempt
  cdn : ℕ → List CdnAttempt
  uApi1 : ℕ → ℚ
  uApi2 : ℕ → ℚ
  uCdn : ℕ → ℕ → ℚ
  backoff : ℚ
  downloadOk : Bool

/-- `process_album` (source lines 379-509), returning
`(changed, message, events)`.  The messages follow the source f-strings
(with `str(e)` rendered by `netExcStr` and the decorative quotes of the
`Saved` line omitted). -/
def process_album (o : NetOracle) (artist album : String) (fs : AlbumFs)
    (overwrite dry_run : Bool) : Bool × String × List Ev :=
  if is_disc_subfolder album then
    (false, "Skip disc subfolder: " ++ artist ++ "/" ++ album, [])
  else if (album_has_cover fs).isSome ∧ overwrite = false then
    (false, "Exists: " ++ (album_has_cover fs).getD "" ++ "  — " ++
      artist ++ " / " ++ album, [])
  else
    -- first-pass search (search_itunes_albums, source lines 355-376, 410-426)
    let s1 := api_search_with_retries o.backoff o.uApi1 o.api1
    let finish := fun (results : List ITunesRec) (evs : List Ev) =>
      match best_album_match results artist album (11/20) with
      | none => (false, "No good match: " ++ artist ++ " / " ++ album, evs)
      | some m =>
        let artwork_url_100 := m.artworkUrl100.getD ""
        if artwork_url_100 = "" then
          (false, "No artworkUrl100: " ++ artist ++ " / " ++ album, evs)
        else if dry_run then
          let top := (build_upscaled_urls artwork_url_100).headD ""
          let extHint := if strEndsWith ".png" (String.mk (lowerList top.data))
                         then ".png" else ".jpg"
          (false, "Would save -> cover" ++ extHint ++ "  from " ++ top, evs)
        else
          let pick := pick_loop o.backoff o.uCdn o.cdn
            (build_upscaled_urls artwork_url_100) 0
          match pick.1 with
          | none =>
            (false, "No accessible artwork: " ++ artist ++ " / " ++ album,
              evs ++ pick.2)
          | some uc =>
            let ext := derive_extension_from_content_type uc.2
            let dest := "cover" ++ ext
            let other_ext := if ext = ".jpg" then ".png" else ".jpg"
            let other := "cover" ++ other_ext
            let otherExists := if other_ext = ".png" then fs.hasPng else fs.hasJpg
            if otherExists ∧ overwrite = false then
              (false, "Exists (other format): " ++ other ++ " — " ++
                artist ++ " / " ++ album, evs ++ pick.2)
            else if o.downloadOk then
              let evs2 := evs ++ pick.2 ++
                [.fileWrite (dest ++ ".part"), .fileReplace dest] ++
                (if overwrite ∧ otherExists then [.fileDelete other] else [])
              (true, "Saved " ++ dest ++ "  [" ++ size_info_of uc.1 ++
                "] — matched " ++ m.artistName.getD "" ++ " – " ++
                m.collectionName.getD "", evs2)
            else
              (false, "Download failed: " ++ artist ++ " / " ++ album ++
                " — stream error",
                evs ++ pick.2 ++ [.fileWrite (dest ++ ".part")])
    match s1.1 with
    | .httpError c =>
      (false, "Network error: " ++ artist ++ " / " ++ album ++ " — " ++
        Nat.repr c ++ " Error", s1.2)
    | .netError e =>
      (false, "Network error: " ++ artist ++ " / " ++ album ++ " — " ++
        netExcStr e, s1.2)
    | .results rs1 =>
      if rs1.isEmpty then
        -- second pass with `attribute=albumTerm` (source lines 428-450)
        let s2 := api_search_with_retries o.backoff o.uApi2 o.api2
        match s2.1 with
        | .httpError c =>
          (false, "Network error: " ++ artist ++ " / " ++ album ++ " — " ++
            Nat.repr c ++ " Error", s1.2 ++ s2.2)
        | .netError e =>
          (false, "Network error: " ++ artist ++ " / " ++ album ++ " — " ++
            netExcStr e, s1.2 ++ s2.2)
        | .results rs2 => finish rs2 (s1.2 ++ s2.2)
      else finish rs1 s1.2

/-! ## The per-album loop of `main` (source lines 556-598) -/

/-- How one iteration of the per-album loop ends: a `process_album` result,
an unexpected exception (caught at source line 590), or a
`KeyboardInterrupt` (source line 587, which `break`s the loop). -/
inductive IterOutcome
  | res (didChange : Bool) (msg : String)
  | exn
  | interrupt
  deriving DecidableEq

/-- Which of the three counters an iteration bumps. -/
inductive Counter
  | changed
  | skipped
  | errors
  deriving DecidableEq

/-- The keyword list of source line 583. -/
def error_keywords : List String :=
  ["error", "failed", "no accessible artwork", "network"]

/-- The counter classification of source lines 580-586: a changed album is
counted `changed`; otherwise the lowercased message is scanned for the error
keywords to decide between `errors` and `skipped`. -/
def classify_iteration (didChange : Bool) (msg : String) : Counter :=
  if didChange then .changed
  else if error_keywords.any (fun k => containsSub k.data (lowerList msg.data)) then
    .errors
  else .skipped

/-- The run totals plus the number of completed (non-interrupted)
iterations. -/
structure RunCounts where
  changed : ℕ
  skipped : ℕ
  errors : ℕ
  processed : ℕ
  deriving DecidableEq

/-- Bump one counter (and the completed-iteration count). -/
def bumpCounter (c : RunCounts) : Counter → RunCounts
  | .changed => ⟨c.changed + 1, c.skipped, c.errors, c.processed + 1⟩
  | .skipped => ⟨c.changed, c.skipped + 1, c.errors, c.processed + 1⟩
  | .errors => ⟨c.changed, c.skipped, c.errors + 1, c.processed + 1⟩

/-- The counting effect of the per-album loop (source lines 560-595): each
iteration bumps exactly one counter — `changed`, or `errors`/`skipped` by
message content, or `errors` on an unexpected exception — and a
`KeyboardInterrupt` stops the loop before counting its iteration. -/
def run_counts : List IterOutcome → RunCounts
  | [] => ⟨0, 0, 0, 0⟩
  | .interrupt :: _ => ⟨0, 0, 0, 0⟩
  | .res d m :: rest => bumpCounter (run_counts rest) (classify_iteration d m)
  | .exn :: rest => bumpCounter (run_counts rest) .errors

/-! ## `find_album_dirs` (source lines 85-94) -/

/-- A directory tree: files and directories with named entries. -/
inductive FsNode
  | file
  | dir (entries : List (String × FsNode))

/-- `Path.is_dir()`. -/
def FsNode.isDir : FsNode → Bool
  | .file => false
  | .dir _ => true

/-- The entries of a directory (`iterdir`), empty for a file. -/
def dirEntries : FsNode → List (String × FsNode)
  | .file => []
  | .dir es => es

/-- Insertion sort by entry name (`sorted(...)` on paths sharing a parent
compares by name). -/
def insertByName (x : String × FsNode) : List (String × FsNode) → List (String × FsNode)
  | [] => [x]
  | y :: ys => if y.1 < x.1 then y :: insertByName x ys else x :: y :: ys

def sortByName : List (String × FsNode) → List (String × FsNode)
  | [] => []
  | x :: xs => insertByName x (sortByName xs)

/-- `find_album_dirs` (source lines 85-94): if the root is not a directory
(or does not exist, `root = none`), yield nothing; otherwise yield the
(artist, album) name pairs of the directory entries of directory entries,
sorted at each level. -/
def find_album_dirs (root : Option FsNode) : List (String × String) :=
  match root with
  | some (.dir entries) =>
    (sortByName (entries.filter (fun e => e.2.isDir))).flatMap (fun a =>
      (sortByName ((dirEntries a.2).filter (fun e => e.2.isDir))).map
        (fun alb => (a.1, alb.1)))
  | _ => []

/-! ## Concrete instances used by theorems below -/

/-- Target (artist, album) and two records realizing the spec's scoring
example: album similarities 0.9 / 0.6, artist similarities 0.2 / 0.95. -/
def exTgtArtist : String := "abcdefghijklmnopqrst"

def exTgtAlbum : String := "abcdefghij"

def exRec1 : ITunesRec :=
  ⟨none, some "Album", some "abcdefghiz", some "abczzzzzzz", some "u1"⟩

def exRec2 : ITunesRec :=
  ⟨none, some "Album", some "abcdefzzzz", some "abcdefghijklmnopqrsz", some "u2"⟩

/-- Target and records realizing a sub-`1e-6` score gap: record 1 scores
`797/1075`, record 2 scores `10791/14555 = 797/1075 − 2/3129325`, and record
2 has the higher album similarity (`36/41 > 4/5`), so the `1e-6` tie-break
replaces record 1 by the strictly lower-scoring record 2. -/
def cexTgtArtist : String := "abcdefghijklmnopqrst"

def cexTgtAlbum : String := "abcdefghijklmnopqrst"

def cexRec1 : ITunesRec :=
  ⟨none, some "Album", some "abcdefghijklmnopzzzz",
    some "abcdefghijklmzzzzzzzzzz", some "u1"⟩

def cexRec2 : ITunesRec :=
  ⟨none, some "Album", some "abcdefghijklmnopqrzzz",
    some "abcdefghijklmnozzzzzzzzzzzzzzzzzzzzzzzzzzzzzzzzzzzz", some "u2"⟩

/-- An oracle whose first search pass returns one perfectly matching record
and whose CDN probe answers every candidate with a non-retryable 404, so
processing ends in the `No accessible artwork` outcome. -/
def noArtOracle : NetOracle :=
  ⟨[.ok [⟨none, some "Album", some "b", some "a", some "u"⟩]], [],
    fun _ => [.httpStatus 404 none], fun _ => 0, fun _ => 0, fun _ _ => 0,
    9/5, true⟩

/-- A trivial oracle for runs that must not touch the network at all. -/
def idleOracle : NetOracle :=
  ⟨[], [], fun _ => [], fun _ => 0, fun _ => 0, fun _ _ => 0, 9/5, true⟩

/-- Whether an attempt outcome is one of the transient errors of the spec:
HTTP 403/429/5xx, a timeout, or a connection failure. -/
def is_transient_attempt : ApiAttempt → Bool
  | .httpStatus c _ => retryable_status c
  | .exc _ => true
  | .ok _ => false

/-- The last timeout/connection exception in an attempt list (the final
value of `last_exc`). -/
def last_net_exc (l : List ApiAttempt) : Option NetExc :=
  l.foldl (fun acc a => match a with | .exc e => some e | _ => acc) none

/-- A URL ending in a `/<2-5 digits>x<2-5 digits>[bb][-<digits>].(jpg|png)`
segment (with case-insensitive `x`, `bb` and extension): the language of the
regex of `build_upscaled_urls`. -/
def EndsInSizeSegment (cs : List Char) : Prop :=
  ∃ (base d1 d2 bb q ext : List Char) (xc : Char),
    cs = base ++ '/' :: (d1 ++ xc :: (d2 ++ bb ++ q ++ '.' :: ext)) ∧
    (∀ c ∈ d1, isDigitChar c = true) ∧ 2 ≤ d1.length ∧ d1.length ≤ 5 ∧
    (∀ c ∈ d2, isDigitChar c = true) ∧ 2 ≤ d2.length ∧ d2.length ≤ 5 ∧
    (xc = 'x' ∨ xc = 'X') ∧
    (bb = [] ∨ ∃ b1 b2, bb = [b1, b2] ∧ (b1 = 'b' ∨ b1 = 'B') ∧ (b2 = 'b' ∨ b2 = 'B')) ∧
    (q = [] ∨ ∃ qd, q = '-' :: qd ∧ qd ≠ [] ∧ ∀ c ∈ qd, isDigitChar c = true) ∧
    (lowerList ext = "jpg".data ∨ lowerList ext = "png".data)

end Mz

/-! # Theorems -/

namespace Mz

/-! ## Shared list helpers -/

theorem isPrefixOf_append_self (l t : List Char) : l.isPrefixOf (l ++ t) = true := by
  induction l with
  | nil => simp [List.isPrefixOf]
  | cons c cs ih => simpa [List.isPrefixOf] using ih

theorem containsSub_of_prefix {n h : List Char} (hp : n.isPrefixOf h = true) :
    containsSub n h = true := by
  cases h with
  | nil =>
    cases n with
    | nil => rfl
    | cons c cs => simp [List.isPrefixOf] at hp
  | cons c cs => simp [containsSub, hp]

theorem mem_insertByName {x y : String × FsNode} {l : List (String × FsNode)} :
    y ∈ insertByName x l ↔ y = x ∨ y ∈ l := by
  induction l with
  | nil => simp [insertByName]
  | cons z zs ih =>
    by_cases h : z.1 < x.1 <;> simp [insertByName, h, ih] <;> tauto

theorem mem_sortByName {x : String × FsNode} {l : List (String × FsNode)} :
    x ∈ sortByName l ↔ x ∈ l := by
  induction l with
  | nil => simp [sortByName]
  | cons z zs ih => simp [sortByName, mem_insertByName, ih]

/-! ## C9 — every completed iteration bumps exactly one counter -/

/-- C9: each completed iteration of the per-album loop increments exactly one
of the `changed`/`skipped`/`errors` counters, so at the summary
`changed + skipped + errors` equals the number of albums actually
processed (iterations not cut short by the user interrupt). -/
theorem run_counts_partition (l : List IterOutcome) :
    (run_counts l).changed + (run_counts l).skipped + (run_counts l).errors =
      (run_counts l).processed := by
  induction l with
  | nil => rfl
  | cons h t ih =>
    cases h with
    | res d m =>
      cases hc : classify_iteration d m <;>
        simp [run_counts, hc, bumpCounter] <;> omega
    | exn => simp [run_counts, bumpCounter]; omega
    | interrupt => rfl

/-! ## C8 — the scanner yields the empty sequence for degenerate roots -/

/-- C8: a root that does not exist or is not a directory yields the empty
sequence (not an error), and so does a root whose entries at depth 1, or at
depth 2, are all non-directories. -/
theorem find_album_dirs_empty :
    find_album_dirs none = [] ∧
    find_album_dirs (some .file) = [] ∧
    (∀ entries, (∀ e ∈ entries, e.2.isDir = false) →
      find_album_dirs (some (.dir entries)) = []) ∧
    (∀ entries, (∀ e ∈ entries, ∀ e2 ∈ dirEntries e.2, e2.2.isDir = false) →
      find_album_dirs (some (.dir entries)) = []) := by
  refine ⟨rfl, rfl, ?_, ?_⟩
  · intro entries h
    have : entries.filter (fun e => e.2.isDir) = [] :=
      List.filter_eq_nil_iff.mpr (by simpa using h)
    simp [find_album_dirs, this, sortByName]
  · intro entries h
    rw [find_album_dirs, List.flatMap_eq_nil_iff]
    intro a ha
    have ha' : a ∈ entries.filter (fun e => e.2.isDir) := mem_sortByName.mp ha
    have ha2 : a ∈ entries := (List.mem_filter.mp ha').1
    have : (dirEntries a.2).filter (fun e => e.2.isDir) = [] :=
      List.filter_eq_nil_iff.mpr (by simpa using h a ha2)
    simp [this, sortByName]

theorem find_album_dirs_empty_witness :
    find_album_dirs (some (.dir [("artist a", .dir [("notes.txt", .file)]),
      ("artist b", .file)])) = [] := by
  refine find_album_dirs_empty.2.2.2 _ ?_
  intro e he e2 he2
  fin_cases he <;> simp_all [dirEntries, FsNode.isDir]

/-! ## C6 — an existing cover short-circuits before any network call -/

/-- C6: when `cover.jpg` or `cover.png` already exists and overwrite is not
requested, `process_album` reports a skip (`changed = false`) and performs no
effect at all: no catalog request, no CDN request, no write — the event trace
is empty, so the directory's contents are unchanged. -/
theorem process_album_existing_cover_skips (o : NetOracle) (artist album : String)
    (fs : AlbumFs) (dry_run : Bool)
    (hcover : fs.hasJpg = true ∨ fs.hasPng = true) :
    (process_album o artist album fs false dry_run).1 = false ∧
    (process_album o artist album fs false dry_run).2.2 = [] := by
  rcases fs with ⟨hj, hp⟩
  cases hd : is_disc_subfolder album <;> cases hj <;> cases hp <;>
    simp_all [process_album, album_has_cover]

theorem process_album_existing_cover_skips_witness :
    (process_album idleOracle "a" "b" ⟨true, false⟩ false false).1 = false ∧
    (process_album idleOracle "a" "b" ⟨true, false⟩ false false).2.2 = [] :=
  process_album_existing_cover_skips idleOracle "a" "b" ⟨true, false⟩ false
    (Or.inl rfl)

/-! ## C1 — exhausting the retries on transient errors -/

/-- Counterexample to C1 as stated: a search whose every attempt (here
`max_retries = 1`) fails with the transient HTTP status 403 does not surface
an error — `api_search_with_retries` returns the normal empty result list,
because `last_exc` is only recorded for timeout/connection exceptions. -/
theorem api_all_403_returns_empty :
    is_transient_attempt (.httpStatus 403 none) = true ∧
    (api_search_with_retries (9/5) (fun _ => 0) [.httpStatus 403 none]).1 =
      .results [] := by decide!

/-- C1 (amended): when all `max_retries` attempts fail with transient errors,
the loop raises the most recent timeout/connection exception if any attempt
raised one; if every failure was a retryable HTTP status (403/429/5xx), it
instead returns the normal empty result list. -/
theorem api_exhausted_transient (backoff : ℚ) (u : ℕ → ℚ)
    (attempts : List ApiAttempt)
    (h : ∀ a ∈ attempts, is_transient_attempt a = true) :
    (api_search_with_retries backoff u attempts).1 =
      match last_net_exc attempts with
      | some e => .netError e
      | none => .results [] := by
  have main : ∀ (l : List ApiAttempt) (n : ℕ) (le : Option NetExc),
      (∀ a ∈ l, is_transient_attempt a = true) →
      (api_loop backoff u l n le).1 =
        match l.foldl (fun acc a => match a with | .exc e => some e | _ => acc) le with
        | some e => .netError e
        | none => .results [] := by
    intro l
    induction l with
    | nil => intro n le _; cases le <;> rfl
    | cons a rest ih =>
      intro n le hall
      have ha := hall a (by simp)
      have hrest : ∀ x ∈ rest, is_transient_attempt x = true :=
        fun x hx => hall x (List.mem_cons_of_mem _ hx)
      cases a with
      | ok rs => simp [is_transient_attempt] at ha
      | httpStatus c ra =>
        have hc : retryable_status c = true := ha
        simp [api_loop, hc, ih (n + 1) le hrest]
      | exc e =>
        simp [api_loop, ih (n + 1) (some e) hrest]
  exact main attempts 0 none h

theorem api_exhausted_transient_witness :
    (api_search_with_retries (9/5) (fun _ => 0)
      [.exc (.timeout 7), .httpStatus 503 none]).1 = .netError (.timeout 7) := by
  have := api_exhausted_transient (9/5) (fun _ => 0)
    [.exc (.timeout 7), .httpStatus 503 none] (by decide)
  simpa [last_net_exc] using this

/-! ## C3 — Retry-After is honored only up to a cap -/

/-- Counterexample to C3 as stated: a parseable `Retry-After: 100` on a
retryable response does not produce a wait of `100` seconds plus jitter.
The catalog client waits `min(30, 100) = 30` seconds plus jitter and the CDN
prober `min(60, 100) = 60`, both different from `100`. -/
theorem retry_after_not_exact :
    api_retry_sleep (some (some 100)) (9/5) 0 0 = 30 + 0 ∧
    cdn_retry_sleep (some (some 100)) (9/5) 0 0 = 60 + 0 ∧
    (30 + 0 : ℚ) ≠ 100 + 0 ∧ (60 + 0 : ℚ) ≠ 100 + 0 := by decide!

/-- C3 (amended): for a retryable response carrying a parseable non-negative
`Retry-After` of `ra` seconds, the wait before the next attempt is
`min(30, ra)` seconds plus the jitter draw for the catalog client and
`min(60, ra)` plus the jitter draw for the CDN prober — exactly `ra` plus
jitter whenever `ra` does not exceed the respective cap — and the retry
loops emit exactly that sleep between the failing attempt and the next. -/
theorem retry_after_honored (ra b uv : ℚ) (i : ℕ) (u : ℕ → ℚ)
    (h : 0 ≤ ra) :
    api_retry_sleep (some (some ra)) b i uv = min 30 ra + uv ∧
    cdn_retry_sleep (some (some ra)) b i uv = min 60 ra + uv ∧
    (ra ≤ 30 → api_retry_sleep (some (some ra)) b i uv = ra + uv) ∧
    (ra ≤ 60 → cdn_retry_sleep (some (some ra)) b i uv = ra + uv) ∧
    (∀ c rest n le, retryable_status c = true →
      (api_loop b u (.httpStatus c (some (some ra)) :: rest) n le).2 =
        .paceWait "itunes_api" :: .apiGet :: .sleep (min 30 ra + u n) ::
          (api_loop b u rest (n + 1) le).2) ∧
    (∀ c rest n url, retryable_status c = true →
      (cdn_loop url b u (.httpStatus c (some (some ra)) :: rest) n).2 =
        .paceWait "mzstatic_cdn" :: .cdnGet url :: .sleep (min 60 ra + u n) ::
          (cdn_loop url b u rest (n + 1)).2) := by
  refine ⟨rfl, rfl, fun hle => ?_, fun hle => ?_, ?_, ?_⟩
  · simp [api_retry_sleep, retry_delay, min_eq_right hle]
  · simp [cdn_retry_sleep, retry_delay, min_eq_right hle]
  · intro c rest n le hc
    simp [api_loop, hc, api_retry_sleep, retry_delay]
  · intro c rest n url hc
    simp [cdn_loop, hc, cdn_retry_sleep, retry_delay]

theorem retry_after_honored_witness :
    api_retry_sleep (some (some 2)) (9/5) 0 (1/4) = 2 + 1/4 := by
  have := retry_after_honored 2 (9/5) (1/4) 0 (fun _ => 0) (by decide!)
  exact this.2.2.1 (by decide!)

/-! ## The `build_upscaled_urls` regex, symbolically (for C5 and C10) -/

theorem takeWhile_append_cons {α} (p : α → Bool) (l1 : List α) (c : α) (l2 : List α)
    (h1 : ∀ x ∈ l1, p x = true) (hc : p c = false) :
    (l1 ++ c :: l2).takeWhile p = l1 ∧ (l1 ++ c :: l2).dropWhile p = c :: l2 := by
  induction l1 with
  | nil => simp [List.takeWhile_cons, List.dropWhile_cons, hc]
  | cons a as ih =>
    have ha := h1 a (by simp)
    have h1' : ∀ x ∈ as, p x = true := fun x hx => h1 x (by simp [hx])
    simpa [List.takeWhile_cons, List.dropWhile_cons, ha] using ih h1'

theorem dropWhile_eq_cons_head {α} {p : α → Bool} :
    ∀ {l : List α} {c rest}, l.dropWhile p = c :: rest → p c = false := by
  intro l
  induction l with
  | nil => intro c rest h; simp [List.dropWhile] at h
  | cons a as ih =>
    intro c rest h
    rw [List.dropWhile_cons] at h
    by_cases hp : p a = true
    · simp [hp] at h; exact ih h
    · rw [if_neg hp] at h
      cases h
      simpa using hp

theorem splitLastSlash_append (p seg : List Char) (h : ∀ c ∈ seg, c ≠ '/') :
    splitLastSlash (p ++ '/' :: seg) = some (p, seg) := by
  have hall : ∀ x ∈ seg.reverse, (fun c => decide (c ≠ '/')) x = true := by
    intro x hx
    simpa using h x (List.mem_reverse.mp hx)
  have hc : (fun c => decide (c ≠ '/')) '/' = false := by decide
  have hsplit := takeWhile_append_cons (fun c => decide (c ≠ '/'))
    seg.reverse '/' p.reverse hall hc
  have hrev : (p ++ '/' :: seg).reverse = seg.reverse ++ '/' :: p.reverse := by simp
  simp only [splitLastSlash, hrev, hsplit.1, hsplit.2, List.reverse_reverse]

theorem splitLastSlash_eq_some {cs base seg : List Char}
    (h : splitLastSlash cs = some (base, seg)) :
    cs = base ++ '/' :: seg ∧ ∀ c ∈ seg, c ≠ '/' := by
  simp only [splitLastSlash] at h
  rcases hd : cs.reverse.dropWhile (fun c => decide (c ≠ '/')) with _ | ⟨c, rest⟩
  · rw [hd] at h; exact absurd h (by simp)
  · rw [hd] at h
    have hc : c = '/' := by
      have := dropWhile_eq_cons_head hd
      simpa using this
    subst hc
    have hsplit := List.takeWhile_append_dropWhile
      (p := fun c => decide (c ≠ '/')) (l := cs.reverse)
    rw [hd] at hsplit
    obtain ⟨rfl, rfl⟩ : rest.reverse = base ∧
        (cs.reverse.takeWhile (fun c => decide (c ≠ '/'))).reverse = seg := by
      cases h; exact ⟨rfl, rfl⟩
    constructor
    · have : cs.reverse.reverse =
          (cs.reverse.takeWhile (fun c => decide (c ≠ '/')) ++ '/' :: rest).reverse := by
        rw [hsplit]
      simpa using this
    · intro x hx
      have hx' : x ∈ cs.reverse.takeWhile (fun c => decide (c ≠ '/')) :=
        List.mem_reverse.mp hx
      simpa using List.mem_takeWhile_imp hx'

theorem takeBB_spec (l : List Char) :
    l = (takeBB l).1 ++ (takeBB l).2 ∧
    ((takeBB l).1 = [] ∨ ∃ b1 b2, (takeBB l).1 = [b1, b2] ∧
      (b1 = 'b' ∨ b1 = 'B') ∧ (b2 = 'b' ∨ b2 = 'B')) := by
  match l with
  | [] => simp [takeBB]
  | [c] => simp [takeBB]
  | b1 :: b2 :: rest =>
    by_cases hb : (b1 = 'b' ∨ b1 = 'B') ∧ (b2 = 'b' ∨ b2 = 'B')
    · refine ⟨?_, Or.inr ⟨b1, b2, ?_, hb.1, hb.2⟩⟩ <;> simp [takeBB, hb]
    · simp [takeBB, hb]

theorem takeQual_spec (l : List Char) :
    l = (takeQual l).1 ++ (takeQual l).2 ∧
    ((takeQual l).1 = [] ∨ ∃ qd, (takeQual l).1 = '-' :: qd ∧ qd ≠ [] ∧
      ∀ c ∈ qd, isDigitChar c = true) := by
  match l with
  | [] => simp [takeQual]
  | c :: rest =>
    by_cases hc : c = '-'
    · subst hc
      by_cases he : rest.takeWhile isDigitChar = []
      · simp [takeQual, he]
      · refine ⟨?_, Or.inr ⟨rest.takeWhile isDigitChar, ?_, he, ?_⟩⟩
        · simp [takeQual, List.isEmpty_iff, he, List.takeWhile_append_dropWhile]
        · simp [takeQual, List.isEmpty_iff, he]
        · intro x hx
          have : x ∈ rest.takeWhile isDigitChar := by
            simpa [takeQual, List.isEmpty_iff, he] using hx
          simpa using List.mem_takeWhile_imp this
    · have : takeQual (c :: rest) = ([], c :: rest) := by
        rcases hch : c with ⟨n⟩
        rw [← hch]
        unfold takeQual
        split
        · next h => exact absurd (by injection h) hc
        · rfl
      simp [this]

theorem takeExt_eq_some {l e : List Char} (h : takeExt l = some e) :
    l = '.' :: e ∧ (lowerList e = "jpg".data ∨ lowerList e = "png".data) := by
  match l with
  | [] => simp [takeExt] at h
  | c :: rest =>
    by_cases hc : c = '.'
    · subst hc
      by_cases hok : lowerList rest = "jpg".data ∨ lowerList rest = "png".data
      · have : takeExt ('.' :: rest) = some rest := by simp [takeExt, hok]
        rw [this] at h
        cases h
        exact ⟨rfl, hok⟩
      · have : takeExt ('.' :: rest) = none := by simp [takeExt, hok]
        rw [this] at h
        cases h
    · have : takeExt (c :: rest) = none := by
        simp only [takeExt]
        split
        · next e' heq =>
          injection heq with hh1 hh2
          exact absurd hh1 hc
        · rfl
      rw [this] at h
      cases h

set_option maxHeartbeats 1000000

theorem parseSizeSeg_complete (d1 d2 bb q ext : List Char) (xc : Char)
    (hd1 : ∀ c ∈ d1, isDigitChar c = true) (hl1 : 2 ≤ d1.length) (hl1' : d1.length ≤ 5)
    (hd2 : ∀ c ∈ d2, isDigitChar c = true) (hl2 : 2 ≤ d2.length) (hl2' : d2.length ≤ 5)
    (hx : xc = 'x' ∨ xc = 'X')
    (hbb : bb = [] ∨ ∃ b1 b2, bb = [b1, b2] ∧ (b1 = 'b' ∨ b1 = 'B') ∧ (b2 = 'b' ∨ b2 = 'B'))
    (hq : q = [] ∨ ∃ qd, q = '-' :: qd ∧ qd ≠ [] ∧ ∀ c ∈ qd, isDigitChar c = true)
    (hext : lowerList ext = "jpg".data ∨ lowerList ext = "png".data) :
    parseSizeSeg (d1 ++ xc :: (d2 ++ bb ++ q ++ '.' :: ext)) = some (bb, q, ext) := by
  have hxd : isDigitChar xc = false := by
    rcases hx with rfl | rfl <;> decide
  have step1 := takeWhile_append_cons isDigitChar d1 xc (d2 ++ bb ++ q ++ '.' :: ext) hd1 hxd
  have hxx : (xc = 'x' ∨ xc = 'X') := hx
  rcases hbb with rfl | ⟨b1, b2, rfl, hb1, hb2⟩ <;>
    rcases hq with rfl | ⟨qd, rfl, hqd0, hqd⟩
  · -- bb = [], q = []
    have hdot : isDigitChar '.' = false := by decide
    have step2 := takeWhile_append_cons isDigitChar d2 '.' ext hd2 hdot
    have hshape : d2 ++ [] ++ [] ++ '.' :: ext = d2 ++ '.' :: ext := by simp
    rw [hshape] at step1 ⊢
    simp only [parseSizeSeg, step1.1, step1.2, if_pos (And.intro hl1 hl1'), if_pos hxx,
      step2.1, step2.2, if_pos (And.intro hl2 hl2')]
    obtain ⟨e1, e2, e3, rfl⟩ : ∃ e1 e2 e3, ext = [e1, e2, e3] := by
      rcases hext with hj | hj <;>
      · rcases ext with _ | ⟨e1, _ | ⟨e2, _ | ⟨e3, _ | _⟩⟩⟩ <;> simp [lowerList] at hj <;>
        exact ⟨_, _, _, rfl⟩
    simp [takeBB, takeQual, takeExt, hext]
  · -- bb = [], q = '-' :: qd
    obtain ⟨q0, qs, rfl⟩ : ∃ q0 qs, qd = q0 :: qs := by
      rcases qd with _ | ⟨q0, qs⟩
      · exact absurd rfl hqd0
      · exact ⟨q0, qs, rfl⟩
    have hdash : isDigitChar '-' = false := by decide
    have step2 := takeWhile_append_cons isDigitChar d2 '-' (q0 :: qs ++ '.' :: ext) hd2 hdash
    have hdot : isDigitChar '.' = false := by decide
    have stepq := takeWhile_append_cons isDigitChar qs '.' ext
      (fun c hc => hqd c (List.mem_cons_of_mem _ hc)) hdot
    have hshape : d2 ++ [] ++ '-' :: (q0 :: qs) ++ '.' :: ext =
        d2 ++ '-' :: (q0 :: qs ++ '.' :: ext) := by simp
    rw [hshape] at step1 ⊢
    simp only [parseSizeSeg, step1.1, step1.2, if_pos (And.intro hl1 hl1'), if_pos hxx,
      step2.1, step2.2, if_pos (And.intro hl2 hl2')]
    have hq0d : isDigitChar q0 = true := hqd q0 (by simp)
    simp [takeBB, takeQual, takeExt, hq0d, stepq.1, stepq.2, hext,
      List.isEmpty_iff]
  · -- bb = [b1, b2], q = []
    have hb1d : isDigitChar b1 = false := by
      rcases hb1 with rfl | rfl <;> decide
    have step2 := takeWhile_append_cons isDigitChar d2 b1 (b2 :: '.' :: ext) hd2 hb1d
    have hshape : d2 ++ [b1, b2] ++ [] ++ '.' :: ext = d2 ++ b1 :: (b2 :: '.' :: ext) := by
      simp
    rw [hshape] at step1 ⊢
    simp only [parseSizeSeg, step1.1, step1.2, if_pos (And.intro hl1 hl1'), if_pos hxx,
      step2.1, step2.2, if_pos (And.intro hl2 hl2')]
    simp [takeBB, takeQual, takeExt, hb1, hb2, hext]
  · -- bb = [b1, b2], q = '-' :: qd
    obtain ⟨q0, qs, rfl⟩ : ∃ q0 qs, qd = q0 :: qs := by
      rcases qd with _ | ⟨q0, qs⟩
      · exact absurd rfl hqd0
      · exact ⟨q0, qs, rfl⟩
    have hb1d : isDigitChar b1 = false := by
      rcases hb1 with rfl | rfl <;> decide
    have step2 := takeWhile_append_cons isDigitChar d2 b1
      (b2 :: ('-' :: (q0 :: qs) ++ '.' :: ext)) hd2 hb1d
    have hdot : isDigitChar '.' = false := by decide
    have stepq := takeWhile_append_cons isDigitChar qs '.' ext
      (fun c hc => hqd c (List.mem_cons_of_mem _ hc)) hdot
    have hshape : d2 ++ [b1, b2] ++ '-' :: (q0 :: qs) ++ '.' :: ext =
        d2 ++ b1 :: (b2 :: ('-' :: (q0 :: qs) ++ '.' :: ext)) := by simp
    rw [hshape] at step1 ⊢
    simp only [parseSizeSeg, step1.1, step1.2, if_pos (And.intro hl1 hl1'), if_pos hxx,
      step2.1, step2.2, if_pos (And.intro hl2 hl2')]
    have hq0d : isDigitChar q0 = true := hqd q0 (by simp)
    simp [takeBB, takeQual, takeExt, hb1, hb2, hq0d, stepq.1, stepq.2, hext,
      List.isEmpty_iff]

theorem parseSizeSeg_sound {seg bb q e : List Char}
    (h : parseSizeSeg seg = some (bb, q, e)) :
    ∃ d1 d2 xc, seg = d1 ++ xc :: (d2 ++ bb ++ q ++ '.' :: e) ∧
      (∀ c ∈ d1, isDigitChar c = true) ∧ 2 ≤ d1.length ∧ d1.length ≤ 5 ∧
      (∀ c ∈ d2, isDigitChar c = true) ∧ 2 ≤ d2.length ∧ d2.length ≤ 5 ∧
      (xc = 'x' ∨ xc = 'X') ∧
      (bb = [] ∨ ∃ b1 b2, bb = [b1, b2] ∧ (b1 = 'b' ∨ b1 = 'B') ∧ (b2 = 'b' ∨ b2 = 'B')) ∧
      (q = [] ∨ ∃ qd, q = '-' :: qd ∧ qd ≠ [] ∧ ∀ c ∈ qd, isDigitChar c = true) ∧
      (lowerList e = "jpg".data ∨ lowerList e = "png".data) := by
  simp only [parseSizeSeg] at h
  by_cases h1 : 2 ≤ (seg.takeWhile isDigitChar).length ∧ (seg.takeWhile isDigitChar).length ≤ 5
  case neg => rw [if_neg h1] at h; cases h
  rw [if_pos h1] at h
  rcases hr1 : seg.dropWhile isDigitChar with _ | ⟨x, r2⟩
  · rw [hr1] at h; cases h
  rw [hr1] at h
  replace h :
      (if x = 'x' ∨ x = 'X' then
        if 2 ≤ (r2.takeWhile isDigitChar).length ∧ (r2.takeWhile isDigitChar).length ≤ 5 then
          match takeExt (takeQual (takeBB (r2.dropWhile isDigitChar)).2).2 with
          | some e =>
            some ((takeBB (r2.dropWhile isDigitChar)).1,
              (takeQual (takeBB (r2.dropWhile isDigitChar)).2).1, e)
          | none => none
        else none
      else none) = some (bb, q, e) := h
  by_cases hx : x = 'x' ∨ x = 'X'
  case neg => rw [if_neg hx] at h; cases h
  rw [if_pos hx] at h
  by_cases h2 : 2 ≤ (r2.takeWhile isDigitChar).length ∧ (r2.takeWhile isDigitChar).length ≤ 5
  case neg => rw [if_neg h2] at h; cases h
  rw [if_pos h2] at h
  rcases hex : takeExt (takeQual (takeBB (r2.dropWhile isDigitChar)).2).2 with _ | e'
  · rw [hex] at h; cases h
  rw [hex] at h
  obtain ⟨rfl, rfl, rfl⟩ : (takeBB (r2.dropWhile isDigitChar)).1 = bb ∧
      (takeQual (takeBB (r2.dropWhile isDigitChar)).2).1 = q ∧ e' = e := by
    cases h; exact ⟨rfl, rfl, rfl⟩
  have hbbs := takeBB_spec (r2.dropWhile isDigitChar)
  have hqs := takeQual_spec (takeBB (r2.dropWhile isDigitChar)).2
  have hes := takeExt_eq_some hex
  refine ⟨seg.takeWhile isDigitChar, r2.takeWhile isDigitChar, x, ?_,
    fun c hc => by simpa using List.mem_takeWhile_imp hc, h1.1, h1.2,
    fun c hc => by simpa using List.mem_takeWhile_imp hc, h2.1, h2.2,
    hx, hbbs.2, hqs.2, hes.2⟩
  have e1 : seg = seg.takeWhile isDigitChar ++ x :: r2 := by
    conv_lhs => rw [← List.takeWhile_append_dropWhile (p := isDigitChar) (l := seg)]
    rw [hr1]
  have e2 : r2 = r2.takeWhile isDigitChar ++ r2.dropWhile isDigitChar :=
    (List.takeWhile_append_dropWhile (p := isDigitChar) (l := r2)).symm
  have e3 : r2.dropWhile isDigitChar =
      (takeBB (r2.dropWhile isDigitChar)).1 ++
        ((takeQual (takeBB (r2.dropWhile isDigitChar)).2).1 ++ '.' :: e') := by
    conv_lhs => rw [hbbs.1]
    congr 1
    conv_lhs => rw [hqs.1]
    congr 1
    exact hes.1
  calc seg = seg.takeWhile isDigitChar ++ x :: r2 := e1
    _ = seg.takeWhile isDigitChar ++ x ::
        (r2.takeWhile isDigitChar ++ ((takeBB (r2.dropWhile isDigitChar)).1 ++
          ((takeQual (takeBB (r2.dropWhile isDigitChar)).2).1 ++ '.' :: e'))) := by
        rw [← e3, ← e2]
    _ = seg.takeWhile isDigitChar ++ x ::
        (r2.takeWhile isDigitChar ++ (takeBB (r2.dropWhile isDigitChar)).1 ++
          (takeQual (takeBB (r2.dropWhile isDigitChar)).2).1 ++ '.' :: e') := by
        simp [List.append_assoc]

theorem matchArtTail_sound {cs base bb q e : List Char}
    (h : matchArtTail cs = some (base, bb, q, e)) : EndsInSizeSegment cs := by
  rcases hsp : splitLastSlash cs with _ | ⟨b', seg⟩ <;>
    simp only [matchArtTail, hsp] at h
  · simp at h
  rcases hps : parseSizeSeg seg with _ | ⟨⟨bb', q', e'⟩⟩ <;> rw [hps] at h
  · simp at h
  simp only [Option.some.injEq, Prod.mk.injEq] at h
  obtain ⟨rfl, rfl, rfl, rfl⟩ := h
  obtain ⟨hcs, _⟩ := splitLastSlash_eq_some hsp
  obtain ⟨d1, d2, xc, hseg, hrest⟩ := parseSizeSeg_sound hps
  exact ⟨b', d1, d2, bb', q', e', xc, by rw [hcs, hseg], hrest⟩

theorem matchArtTail_complete {cs : List Char} (h : EndsInSizeSegment cs) :
    matchArtTail cs ≠ none := by
  obtain ⟨base, d1, d2, bb, q, ext, xc, rfl, hd1, hl1, hl1', hd2, hl2, hl2',
    hx, hbb, hq, hext⟩ := h
  have hdig : ∀ c : Char, isDigitChar c = true → c ≠ '/' := by
    intro c hc hc2
    rw [hc2] at hc
    exact absurd hc (by decide)
  have hslash : ∀ c ∈ d1 ++ xc :: (d2 ++ bb ++ q ++ '.' :: ext), c ≠ '/' := by
    intro c hc
    simp only [List.mem_append, List.mem_cons] at hc
    rcases hc with h1 | rfl | hc2
    · exact hdig c (hd1 c h1)
    · rcases hx with rfl | rfl <;> decide
    rcases hc2 with ((h2 | h3) | h4) | rfl | h5
    · exact hdig c (hd2 c h2)
    · rcases hbb with rfl | ⟨b1, b2, rfl, hb1, hb2⟩
      · simp at h3
      · simp only [List.mem_cons, List.not_mem_nil, or_false] at h3
        rcases h3 with rfl | rfl
        · rcases hb1 with rfl | rfl <;> decide
        · rcases hb2 with rfl | rfl <;> decide
    · rcases hq with rfl | ⟨qd, rfl, _, hqd⟩
      · simp at h4
      · simp only [List.mem_cons] at h4
        rcases h4 with rfl | hmem
        · decide
        · exact hdig c (hqd c hmem)
    · decide
    · intro heq
      subst heq
      have hl : Char.toLower '/' ∈ lowerList ext := List.mem_map_of_mem _ h5
      rcases hext with he | he <;> rw [he] at hl <;> exact absurd hl (by decide)
  have hm := splitLastSlash_append base _ hslash
  have hp := parseSizeSeg_complete d1 d2 bb q ext xc hd1 hl1 hl1' hd2 hl2 hl2'
    hx hbb hq hext
  simp only [matchArtTail, hm, hp]
  simp

/-- The matched branch of `build_upscaled_urls`. -/
theorem build_upscaled_urls_matched {url : String} {base bb q e : List Char}
    (h : matchArtTail url.data = some (base, bb, q, e)) :
    build_upscaled_urls url = PROBE_SIZES.map (fun sz =>
      String.mk base ++ "/" ++ sz ++ String.mk bb ++ String.mk q ++ "." ++
        String.mk e) := by
  simp only [build_upscaled_urls, h]

/-- The fallback branch of `build_upscaled_urls`. -/
theorem build_upscaled_urls_fallback {url : String}
    (h : matchArtTail url.data = none) :
    build_upscaled_urls url = PROBE_SIZES.map (fun sz =>
      url ++ "/" ++ sz ++ "." ++
        (if strEndsWith ".png" (String.mk (lowerList url.data)) then "png"
         else "jpg")) := by
  simp only [build_upscaled_urls, h]

/-! ## C5 — expanding a `/<w>x<h>bb.jpg` URL -/

/-- Counterexample to C5 as stated: `"x/1x1bb.jpg"` ends in
`/<digits>x<digits>bb.jpg`, but its sizes have fewer than the 2 digits the
regex `\d{2,5}` requires, so `build_upscaled_urls` takes the fallback branch:
the first candidate is `"x/1x1bb.jpg/100000x100000.jpg"`, which drops the
`bb` marker instead of ending in `/100000x100000bb.jpg`. -/
theorem build_upscaled_urls_one_digit :
    (build_upscaled_urls "x/1x1bb.jpg").headD "" =
      "x/1x1bb.jpg/100000x100000.jpg" ∧
    strEndsWith "/100000x100000bb.jpg"
      ((build_upscaled_urls "x/1x1bb.jpg").headD "") = false := by decide!

/-- C5 (amended): for every URL ending in `/<2-5 digits>x<2-5 digits>bb.jpg`
— the digit counts the regex accepts — `build_upscaled_urls` substitutes each
`PROBE_SIZES` token in order, preserving the `bb` marker, the (empty) quality
suffix and the `.jpg` extension; the first element ends in
`/100000x100000bb.jpg`, the last in `/600x600bb.jpg`, and the probed sizes
are strictly descending in between. -/
theorem build_upscaled_urls_sized (p d1 d2 : List Char)
    (hd1 : ∀ c ∈ d1, isDigitChar c = true) (hl1 : 2 ≤ d1.length)
    (hl1' : d1.length ≤ 5)
    (hd2 : ∀ c ∈ d2, isDigitChar c = true) (hl2 : 2 ≤ d2.length)
    (hl2' : d2.length ≤ 5) :
    build_upscaled_urls (String.mk (p ++ '/' :: (d1 ++ 'x' :: (d2 ++ "bb.jpg".data)))) =
      PROBE_SIZES.map (fun sz => String.mk (p ++ '/' :: (sz.data ++ "bb.jpg".data))) ∧
    strEndsWith "/100000x100000bb.jpg"
      ((build_upscaled_urls
        (String.mk (p ++ '/' :: (d1 ++ 'x' :: (d2 ++ "bb.jpg".data))))).headD "") = true ∧
    strEndsWith "/600x600bb.jpg"
      ((build_upscaled_urls
        (String.mk (p ++ '/' :: (d1 ++ 'x' :: (d2 ++ "bb.jpg".data))))).getLastD "") = true ∧
    PROBE_SIZES = probeSizeNums.map sizeToken ∧
    probeSizeNums.Pairwise (fun a b => b < a) := by
  have hshape : d2 ++ "bb.jpg".data = d2 ++ ['b', 'b'] ++ [] ++ '.' :: "jpg".data := by
    simp
  have hmatch : matchArtTail (String.mk (p ++ '/' :: (d1 ++ 'x' :: (d2 ++ "bb.jpg".data)))).data =
      some (p, ['b', 'b'], [], "jpg".data) := by
    show matchArtTail (p ++ '/' :: (d1 ++ 'x' :: (d2 ++ "bb.jpg".data))) = _
    have hdig : ∀ c : Char, isDigitChar c = true → c ≠ '/' := by
      intro c hc hc2
      rw [hc2] at hc
      exact absurd hc (by decide)
    have hslash : ∀ c ∈ d1 ++ 'x' :: (d2 ++ "bb.jpg".data), c ≠ '/' := by
      intro c hc
      simp only [List.mem_append, List.mem_cons] at hc
      rcases hc with h1 | rfl | h2 | h3
      · exact hdig c (hd1 c h1)
      · decide
      · exact hdig c (hd2 c h2)
      · rcases h3 with rfl | rfl | rfl | rfl | rfl | rfl | h0
        any_goals decide
        simp at h0
    have hp := parseSizeSeg_complete d1 d2 ['b', 'b'] [] "jpg".data 'x'
      hd1 hl1 hl1' hd2 hl2 hl2' (Or.inl rfl)
      (Or.inr ⟨'b', 'b', rfl, Or.inl rfl, Or.inl rfl⟩) (Or.inl rfl) (Or.inl rfl)
    rw [show d1 ++ 'x' :: (d2 ++ ['b', 'b'] ++ [] ++ '.' :: "jpg".data) =
        d1 ++ 'x' :: (d2 ++ "bb.jpg".data) from by simp] at hp
    simp only [matchArtTail, splitLastSlash_append p _ hslash, hp]
  have hmain : build_upscaled_urls (String.mk (p ++ '/' :: (d1 ++ 'x' :: (d2 ++ "bb.jpg".data)))) =
      PROBE_SIZES.map (fun sz => String.mk (p ++ '/' :: (sz.data ++ "bb.jpg".data))) := by
    rw [build_upscaled_urls_matched hmatch]
    refine List.map_congr_left ?_
    intro sz _
    show String.mk ((((((p ++ "/".data) ++ sz.data) ++ ['b', 'b']) ++ []) ++ ".".data) ++ "jpg".data) = _
    congr 1
    simp [List.append_assoc]
  refine ⟨hmain, ?_, ?_, by decide, by decide⟩
  · rw [hmain]
    show strEndsWith "/100000x100000bb.jpg"
      (String.mk (p ++ '/' :: ("100000x100000".data ++ "bb.jpg".data))) = true
    show ("/100000x100000bb.jpg".data.isSuffixOf
      (p ++ '/' :: ("100000x100000".data ++ "bb.jpg".data)) : Bool) = true
    rw [show '/' :: ("100000x100000".data ++ "bb.jpg".data) =
      "/100000x100000bb.jpg".data from by decide]
    exact List.isSuffixOf_iff_suffix.mpr (List.suffix_append p _)
  · rw [hmain]
    show strEndsWith "/600x600bb.jpg"
      (String.mk (p ++ '/' :: ("600x600".data ++ "bb.jpg".data))) = true
    show ("/600x600bb.jpg".data.isSuffixOf
      (p ++ '/' :: ("600x600".data ++ "bb.jpg".data)) : Bool) = true
    rw [show '/' :: ("600x600".data ++ "bb.jpg".data) =
      "/600x600bb.jpg".data from by decide]
    exact List.isSuffixOf_iff_suffix.mpr (List.suffix_append p _)

theorem build_upscaled_urls_sized_witness :
    build_upscaled_urls (String.mk ("https://a.mz/img".data ++ '/' ::
        ("100".data ++ 'x' :: ("100".data ++ "bb.jpg".data)))) =
      PROBE_SIZES.map (fun sz =>
        String.mk ("https://a.mz/img".data ++ '/' :: (sz.data ++ "bb.jpg".data))) :=
  (build_upscaled_urls_sized "https://a.mz/img".data "100".data "100".data
    (by decide) (by decide) (by decide) (by decide) (by decide) (by decide)).1

/-! ## C10 — shape of the candidate list for every input -/

/-- C10: for every input string `build_upscaled_urls` returns a non-empty
list of exactly 15 candidates, one per `PROBE_SIZES` entry in order (each
branch is a map over `PROBE_SIZES`), and the fallback append-a-size-segment
form is taken exactly when the URL does not end in a
`/<2-5 digits>x<2-5 digits>[bb][-<quality>].(jpg|png)` segment. -/
theorem build_upscaled_urls_shape (url : String) :
    (build_upscaled_urls url).length = 15 ∧
    build_upscaled_urls url ≠ [] ∧
    (matchArtTail url.data = none ↔ ¬ EndsInSizeSegment url.data) ∧
    (matchArtTail url.data = none →
      build_upscaled_urls url = PROBE_SIZES.map (fun sz =>
        url ++ "/" ++ sz ++ "." ++
          (if strEndsWith ".png" (String.mk (lowerList url.data)) then "png"
           else "jpg"))) ∧
    (∀ base bb q e, matchArtTail url.data = some (base, bb, q, e) →
      build_upscaled_urls url = PROBE_SIZES.map (fun sz =>
        String.mk base ++ "/" ++ sz ++ String.mk bb ++ String.mk q ++ "." ++
          String.mk e)) := by
  refine ⟨?_, ?_, ⟨?_, ?_⟩, fun h => build_upscaled_urls_fallback h,
    fun base bb q e h => build_upscaled_urls_matched h⟩
  · rcases h : matchArtTail url.data with _ | ⟨⟨base, bb, q, e⟩⟩
    · rw [build_upscaled_urls_fallback h]; rfl
    · rw [build_upscaled_urls_matched h]; rfl
  · rcases h : matchArtTail url.data with _ | ⟨⟨base, bb, q, e⟩⟩
    · rw [build_upscaled_urls_fallback h]; simp [PROBE_SIZES]
    · rw [build_upscaled_urls_matched h]; simp [PROBE_SIZES]
  · intro hn hpat
    exact matchArtTail_complete hpat hn
  · intro hno
    rcases h : matchArtTail url.data with _ | ⟨⟨base, bb, q, e⟩⟩
    · rfl
    · exact absurd (matchArtTail_sound h) hno

/-! ## C7 — the similarity of normalization-equal strings

The key fact is that `find_longest_match` applied to two identical sequences
returns the whole (diagonal) range.  The main scan is analysed row by row:
before row `i` the best match is `(alo, alo, i - alo)` and every chain in
`j2len` is bounded by both its column and the number of rows scanned, with
the diagonal chain full; row `i` then improves the best exactly at the
diagonal entry `j = i`. -/

theorem mem_indicesOf {c : Char} {b : List Char} {j : Nat} :
    j ∈ indicesOf c b ↔ j < b.length ∧ b.getD j ' ' = c := by
  simp [indicesOf, List.mem_filter, List.mem_range]

theorem indicesOf_pairwise (c : Char) (b : List Char) :
    (indicesOf c b).Pairwise (· < ·) :=
  (List.pairwise_lt_range b.length).filter _

theorem sorted_split {l : List Nat} (hs : l.Pairwise (· < ·)) {i : Nat}
    (hi : i ∈ l) :
    ∃ l1 l2, l = l1 ++ i :: l2 ∧ (∀ j ∈ l1, j < i) ∧ (∀ j ∈ l2, i < j) := by
  induction l with
  | nil => cases hi
  | cons a tl ih =>
    rcases List.pairwise_cons.mp hs with ⟨ha, htl⟩
    rcases List.mem_cons.mp hi with rfl | hitl
    · exact ⟨[], tl, rfl, by simp, ha⟩
    · obtain ⟨l1, l2, rfl, h1, h2⟩ := ih htl hitl
      exact ⟨a :: l1, l2, rfl, by
        intro j hj
        rcases List.mem_cons.mp hj with rfl | hj'
        · exact ha i (by simp)
        · exact h1 j hj', h2⟩

theorem flmRow_append (blo bhi i : Nat) (j2old : Nat → Nat) (l1 l2 : List Nat)
    (h : ∀ j ∈ l1, j < bhi) :
    ∀ (new : Nat → Nat) (st : FlmSt),
    flmRow blo bhi i j2old (l1 ++ l2) new st =
      flmRow blo bhi i j2old l2 (flmRow blo bhi i j2old l1 new st).1
        (flmRow blo bhi i j2old l1 new st).2 := by
  induction l1 with
  | nil => intro new st; simp [flmRow]
  | cons j l1' ih =>
    intro new st
    have hj : j < bhi := h j (by simp)
    have h' : ∀ x ∈ l1', x < bhi := fun x hx => h x (by simp [hx])
    by_cases hjb : j < blo
    · simp only [List.cons_append, flmRow, if_pos hjb]
      exact ih h' new st
    · simp only [List.cons_append, flmRow, if_neg hjb, if_neg (by omega : ¬ bhi ≤ j)]
      exact ih h' _ _

/-- Phase 1 of a row: occurrence columns strictly below the row index never
improve the best and keep the chain-table bounds. -/
theorem flmRow_low (alo ahi i : Nat) (j2old : Nat → Nat)
    (hO1 : ∀ j, j2old j ≤ j + 1 - alo)
    (hai : alo ≤ i) (hia : i < ahi) :
    ∀ (l : List Nat), (∀ j ∈ l, j < i) →
    ∀ (new : Nat → Nat),
      (∀ j, new j ≤ j + 1 - alo) → (∀ j, new j ≤ i + 1 - alo) →
      (flmRow alo ahi i j2old l new ⟨alo, alo, i - alo⟩).2 = ⟨alo, alo, i - alo⟩ ∧
      (∀ j, (flmRow alo ahi i j2old l new ⟨alo, alo, i - alo⟩).1 j ≤ j + 1 - alo) ∧
      (∀ j, (flmRow alo ahi i j2old l new ⟨alo, alo, i - alo⟩).1 j ≤ i + 1 - alo) ∧
      (∀ j, i ≤ j →
        (flmRow alo ahi i j2old l new ⟨alo, alo, i - alo⟩).1 j = new j) := by
  intro l
  induction l with
  | nil => intro _ new hN1 hN2; exact ⟨rfl, hN1, hN2, fun _ _ => rfl⟩
  | cons j l' ih =>
    intro hl new hN1 hN2
    have hji : j < i := hl j (by simp)
    have hl' : ∀ x ∈ l', x < i := fun x hx => hl x (by simp [hx])
    by_cases hjb : j < alo
    · simp only [flmRow, if_pos hjb]
      exact ih hl' new hN1 hN2
    · have hnb : ¬ ahi ≤ j := by omega
      simp only [flmRow, if_neg hjb, if_neg hnb]
      have hk : (if j = 0 then 0 else j2old (j - 1)) + 1 ≤ i - alo := by
        by_cases hj0 : j = 0
        · simp only [if_pos hj0]; omega
        · simp only [if_neg hj0]
          have := hO1 (j - 1)
          omega
      have hkc : (if j = 0 then 0 else j2old (j - 1)) + 1 ≤ j + 1 - alo := by
        by_cases hj0 : j = 0
        · simp only [if_pos hj0]; omega
        · simp only [if_neg hj0]
          have := hO1 (j - 1)
          omega
      rw [if_neg (show ¬ (⟨alo, alo, i - alo⟩ : FlmSt).bestsize <
          (if j = 0 then 0 else j2old (j - 1)) + 1 from by
        show ¬ i - alo < _
        omega)]
      have hn1 : ∀ j', (fun j'' => if j'' = j then
          (if j = 0 then 0 else j2old (j - 1)) + 1 else new j'') j' ≤ j' + 1 - alo := by
        intro j'
        by_cases hj' : j' = j
        · show (if j' = j then _ else _) ≤ _
          rw [if_pos hj', hj']
          exact hkc
        · show (if j' = j then _ else _) ≤ _
          rw [if_neg hj']
          exact hN1 j'
      have hn2 : ∀ j', (fun j'' => if j'' = j then
          (if j = 0 then 0 else j2old (j - 1)) + 1 else new j'') j' ≤ i + 1 - alo := by
        intro j'
        by_cases hj' : j' = j
        · show (if j' = j then _ else _) ≤ _
          rw [if_pos hj']
          omega
        · show (if j' = j then _ else _) ≤ _
          rw [if_neg hj']
          exact hN2 j'
      obtain ⟨ha, hb, hc, hd⟩ := ih hl' _ hn1 hn2
      refine ⟨ha, hb, hc, fun j' hij' => ?_⟩
      rw [hd j' hij']
      show (if j' = j then _ else _) = _
      rw [if_neg (show ¬ j' = j from by omega)]

/-- Phase 3 of a row: occurrence columns strictly above the row index never
improve the best (their chains are bounded by the rows scanned) and keep the
bounds; the freshly written diagonal entry survives. -/
theorem flmRow_high (alo ahi i : Nat) (j2old : Nat → Nat)
    (hO1 : ∀ j, j2old j ≤ j + 1 - alo) (hO2 : ∀ j, j2old j ≤ i - alo)
    (hai : alo ≤ i) :
    ∀ (l : List Nat), (∀ j ∈ l, i < j) →
    ∀ (new : Nat → Nat),
      (∀ j, new j ≤ j + 1 - alo) → (∀ j, new j ≤ i + 1 - alo) →
      new i = i + 1 - alo →
      (flmRow alo ahi i j2old l new ⟨alo, alo, i + 1 - alo⟩).2 =
        ⟨alo, alo, i + 1 - alo⟩ ∧
      (∀ j, (flmRow alo ahi i j2old l new ⟨alo, alo, i + 1 - alo⟩).1 j ≤ j + 1 - alo) ∧
      (∀ j, (flmRow alo ahi i j2old l new ⟨alo, alo, i + 1 - alo⟩).1 j ≤ i + 1 - alo) ∧
      (flmRow alo ahi i j2old l new ⟨alo, alo, i + 1 - alo⟩).1 i = i + 1 - alo := by
  intro l
  induction l with
  | nil => intro _ new hN1 hN2 hNi; exact ⟨rfl, hN1, hN2, hNi⟩
  | cons j l' ih =>
    intro hl new hN1 hN2 hNi
    have hji : i < j := hl j (by simp)
    have hl' : ∀ x ∈ l', i < x := fun x hx => hl x (by simp [hx])
    by_cases hnb : ahi ≤ j
    · have hfl : flmRow alo ahi i j2old (j :: l') new ⟨alo, alo, i + 1 - alo⟩ =
          (new, ⟨alo, alo, i + 1 - alo⟩) := by
        simp only [flmRow, if_neg (show ¬ j < alo from by omega), if_pos hnb]
      rw [hfl]
      exact ⟨rfl, hN1, hN2, hNi⟩
    · simp only [flmRow, if_neg (show ¬ j < alo from by omega), if_neg hnb]
      have hj0 : ¬ j = 0 := by omega
      have hk : (if j = 0 then 0 else j2old (j - 1)) + 1 ≤ i + 1 - alo := by
        simp only [if_neg hj0]
        have := hO2 (j - 1)
        omega
      have hkc : (if j = 0 then 0 else j2old (j - 1)) + 1 ≤ j + 1 - alo := by
        simp only [if_neg hj0]
        have := hO1 (j - 1)
        omega
      rw [if_neg (show ¬ (⟨alo, alo, i + 1 - alo⟩ : FlmSt).bestsize <
          (if j = 0 then 0 else j2old (j - 1)) + 1 from by
        show ¬ i + 1 - alo < _
        omega)]
      refine ih hl' _ ?_ ?_ ?_
      · intro j'
        by_cases hj' : j' = j
        · show (if j' = j then _ else _) ≤ _
          rw [if_pos hj', hj']
          exact hkc
        · show (if j' = j then _ else _) ≤ _
          rw [if_neg hj']
          exact hN1 j'
      · intro j'
        by_cases hj' : j' = j
        · show (if j' = j then _ else _) ≤ _
          rw [if_pos hj']
          exact hk
        · show (if j' = j then _ else _) ≤ _
          rw [if_neg hj']
          exact hN2 j'
      · show (if i = j then _ else _) = _
        rw [if_neg (show ¬ i = j from by omega)]
        exact hNi

/-- One full diagonal row of `find_longest_match` on identical strings. -/
theorem flmRow_diag (s : List Char) (alo ahi i : Nat)
    (hai : alo ≤ i) (hia : i < ahi) (han : ahi ≤ s.length)
    (j2old : Nat → Nat)
    (hO1 : ∀ j, j2old j ≤ j + 1 - alo) (hO2 : ∀ j, j2old j ≤ i - alo)
    (hO3 : alo < i → j2old (i - 1) = i - alo) :
    (flmRow alo ahi i j2old (indicesOf (s.getD i ' ') s) (fun _ => 0)
      ⟨alo, alo, i - alo⟩).2 = ⟨alo, alo, i + 1 - alo⟩ ∧
    (∀ j, (flmRow alo ahi i j2old (indicesOf (s.getD i ' ') s) (fun _ => 0)
      ⟨alo, alo, i - alo⟩).1 j ≤ j + 1 - alo) ∧
    (∀ j, (flmRow alo ahi i j2old (indicesOf (s.getD i ' ') s) (fun _ => 0)
      ⟨alo, alo, i - alo⟩).1 j ≤ i + 1 - alo) ∧
    (flmRow alo ahi i j2old (indicesOf (s.getD i ' ') s) (fun _ => 0)
      ⟨alo, alo, i - alo⟩).1 i = i + 1 - alo := by
  have hmem : i ∈ indicesOf (s.getD i ' ') s :=
    mem_indicesOf.mpr ⟨by omega, rfl⟩
  obtain ⟨l1, l2, hsplit, h1, h2⟩ :=
    sorted_split (indicesOf_pairwise (s.getD i ' ') s) hmem
  rw [hsplit]
  rw [flmRow_append alo ahi i j2old l1 (i :: l2)
    (fun j hj => by have := h1 j hj; omega)]
  obtain ⟨hst, hB1, hB2, hpres⟩ := flmRow_low alo ahi i j2old hO1 hai hia l1 h1
    (fun _ => 0) (by simp) (by simp)
  rw [hst]
  have hk : (if i = 0 then 0 else j2old (i - 1)) + 1 = i + 1 - alo := by
    by_cases hi0 : i = 0
    · simp only [if_pos hi0]; omega
    · simp only [if_neg hi0]
      by_cases hal : alo < i
      · have := hO3 hal; omega
      · have : alo = i := by omega
        have hb := hO1 (i - 1)
        omega
  simp only [flmRow, if_neg (show ¬ i < alo from by omega),
    if_neg (show ¬ ahi ≤ i from by omega)]
  have hlt : (⟨alo, alo, i - alo⟩ : FlmSt).bestsize <
      (if i = 0 then 0 else j2old (i - 1)) + 1 := by
    show i - alo < _
    rw [hk]
    omega
  rw [if_pos hlt]
  have hbest : (⟨i + 1 - ((if i = 0 then 0 else j2old (i - 1)) + 1),
      i + 1 - ((if i = 0 then 0 else j2old (i - 1)) + 1),
      (if i = 0 then 0 else j2old (i - 1)) + 1⟩ : FlmSt) =
      ⟨alo, alo, i + 1 - alo⟩ := by
    rw [hk]
    have : i + 1 - (i + 1 - alo) = alo := by omega
    rw [this]
  rw [hbest]
  have hNi : (fun j' => if j' = i then (if i = 0 then 0 else j2old (i - 1)) + 1
      else (flmRow alo ahi i j2old l1 (fun _ => 0) ⟨alo, alo, i - alo⟩).1 j') i =
      i + 1 - alo := by simp [hk]
  exact flmRow_high alo ahi i j2old hO1 hO2 hai l2 h2 _
    (fun j' => by
      by_cases hj' : j' = i <;> simp [hj']
      · omega
      · exact hB1 j')
    (fun j' => by
      by_cases hj' : j' = i <;> simp [hj']
      · omega
      · exact hB2 j')
    hNi

/-- The full row scan of `find_longest_match` on identical strings yields
the whole diagonal of the scanned range. -/
theorem flmRows_diag (s : List Char) (alo ahi : Nat) (han : ahi ≤ s.length) :
    ∀ (cnt i : Nat), alo ≤ i → i + cnt = ahi →
    ∀ (j2 : Nat → Nat),
      (∀ j, j2 j ≤ j + 1 - alo) → (∀ j, j2 j ≤ i - alo) →
      (alo < i → j2 (i - 1) = i - alo) →
      flmRows s s alo ahi (List.range' i cnt) j2 ⟨alo, alo, i - alo⟩ =
        ⟨alo, alo, ahi - alo⟩ := by
  intro cnt
  induction cnt with
  | zero =>
    intro i hai hic j2 _ _ _
    have : i = ahi := by omega
    subst this
    rfl
  | succ cnt ih =>
    intro i hai hic j2 hO1 hO2 hO3
    rw [List.range'_succ]
    obtain ⟨hst, hB1, hB2, hdiag⟩ := flmRow_diag s alo ahi i hai (by omega) han
      j2 hO1 hO2 hO3
    simp only [flmRows]
    rw [hst]
    exact ih (i + 1) (by omega) (by omega) _ hB1
      (fun j => by have := hB2 j; omega)
      (fun _ => hdiag)

/-- `find_longest_match` on identical strings returns the whole range: the
main scan ends at the full diagonal and both extension loops immediately
stop at their bounds. -/
theorem findLongestMatch_diag (s : List Char) (alo ahi : Nat)
    (h1 : alo ≤ ahi) (h2 : ahi ≤ s.length) :
    findLongestMatch s s alo ahi alo ahi = ⟨alo, alo, ahi - alo⟩ := by
  have hrows : flmRows s s alo ahi (List.range' alo (ahi - alo)) (fun _ => 0)
      ⟨alo, alo, 0⟩ = ⟨alo, alo, ahi - alo⟩ := by
    have h0 : (⟨alo, alo, 0⟩ : FlmSt) = ⟨alo, alo, alo - alo⟩ := by
      rw [Nat.sub_self]
    rw [h0]
    exact flmRows_diag s alo ahi h2 (ahi - alo) alo le_rfl (by omega)
      (fun _ => 0) (by simp) (by simp) (by omega)
  have hlow : ∀ fuel (st : FlmSt), st.besti = alo →
      extendLower s s alo alo fuel st = st := by
    intro fuel st hst
    cases fuel with
    | zero => rfl
    | succ fuel =>
      unfold extendLower
      split
      · next hcon =>
        have hcc : alo < st.besti := hcon.1
        rw [hst] at hcc
        exact absurd hcc (lt_irrefl alo)
      · rfl
  have hup : ∀ fuel, extendUpper s s ahi ahi fuel ⟨alo, alo, ahi - alo⟩ =
      ⟨alo, alo, ahi - alo⟩ := by
    intro fuel
    cases fuel with
    | zero => rfl
    | succ fuel =>
      unfold extendUpper
      split
      · next hcon =>
        have hcc : alo + (ahi - alo) < ahi := hcon.1
        exact absurd hcc (by omega)
      · rfl
  simp only [findLongestMatch, hrows]
  rw [hlow _ _ rfl, hup]

/-- An empty range produces no matching blocks. -/
theorem matchingBlocksGo_empty (s : List Char) (fuel x : Nat) (hx : x ≤ s.length) :
    matchingBlocksGo s s fuel x x x x = [] := by
  cases fuel with
  | zero => rfl
  | succ fuel =>
    simp only [matchingBlocksGo]
    rw [findLongestMatch_diag s x x le_rfl hx]
    simp

/-- On identical strings the matching blocks are the single full block. -/
theorem matchingBlocks_self (s : List Char) :
    matchingBlocks s s = if s.length = 0 then [] else [⟨0, 0, s.length⟩] := by
  unfold matchingBlocks
  by_cases hn : s.length = 0
  · rw [if_pos hn, hn]
    exact matchingBlocksGo_empty s 1 0 (by omega)
  · rw [if_neg hn]
    simp only [matchingBlocksGo, findLongestMatch_diag s 0 s.length (by omega) le_rfl]
    simp only [Nat.sub_zero]
    rw [if_neg hn]
    simp only [Nat.zero_add]
    rw [matchingBlocksGo_empty s _ 0 (by omega),
      matchingBlocksGo_empty s _ s.length le_rfl]
    simp

/-- `ratio()` of two identical sequences is `1.0`. -/
theorem ratioQ_self (s : List Char) : ratioQ s s = 1 := by
  unfold ratioQ
  rw [matchingBlocks_self]
  by_cases hn : s.length = 0
  · simp [hn]
  · rw [if_neg hn, if_neg (by omega)]
    simp only [List.map_cons, List.map_nil, List.sum_cons, List.sum_nil]
    have hne : ((s.length : ℚ) + s.length) ≠ 0 := by
      have : (0 : ℚ) < (s.length : ℚ) := by
        exact_mod_cast Nat.pos_of_ne_zero hn
      positivity
    field_simp
    ring

/-- C7: `similarity(a, a) = 1.0` for every string, and more generally
`similarity(a, b) = 1.0` whenever the normalized forms of `a` and `b`
(lowercased, whitespace-collapsed, punctuation-stripped) coincide. -/
theorem similarity_self_eq_one :
    (∀ a : String, similarity a a = 1) ∧
    (∀ a b : String, normalize_text a = normalize_text b → similarity a b = 1) := by
  have h2 : ∀ a b : String, normalize_text a = normalize_text b →
      similarity a b = 1 := by
    intro a b h
    unfold similarity
    rw [h]
    exact ratioQ_self _
  exact ⟨fun a => h2 a a rfl, h2⟩

theorem similarity_self_eq_one_witness :
    similarity "Abbey Road" "abbey road!!" = 1 ∧
    normalize_text "Abbey Road" = normalize_text "abbey road!!" :=
  ⟨similarity_self_eq_one.2 "Abbey Road" "abbey road!!" (by decide),
   by decide⟩

/-! ## C4 — the match selector -/

theorem ratioQ_nonneg (a b : List Char) : 0 ≤ ratioQ a b := by
  unfold ratioQ
  split
  · norm_num
  · apply div_nonneg
    · positivity
    · positivity

theorem score_of_nonneg (artist album : String) (r : ITunesRec) :
    0 ≤ score_of artist album r := by
  unfold score_of alb_score_of art_score_of similarity
  have h1 := ratioQ_nonneg (normalize_text album).data
    (normalize_text (r.collectionName.getD "")).data
  have h2 := ratioQ_nonneg (normalize_text artist).data
    (normalize_text (r.artistName.getD "")).data
  nlinarith

/-- Counterexample to C4 as stated: the two records score `797/1075` and
`10791/14555 = 797/1075 - 2/3129325`; the gap is positive but below `1e-6`
and the second record has the higher album similarity, so the tie-break at
source line 134 replaces the incumbent and `best_album_match` returns the
second record, whose score is strictly below the maximal score. -/
theorem best_album_match_not_maximal :
    best_album_match [cexRec1, cexRec2] cexTgtArtist cexTgtAlbum (11/20) =
      some cexRec2 ∧
    score_of cexTgtArtist cexTgtAlbum cexRec2 <
      score_of cexTgtArtist cexTgtAlbum cexRec1 ∧
    surviving cexRec1 = true := by decide!

/-- The fold of `best_album_match` keeps the invariant: the incumbent is a
scanned surviving record carrying its own score and album score, and each
scanned surviving record scores below the incumbent's score plus one `1e-6`
drift allowance per scanned surviving record. -/
theorem bmStep_fold_spec (artist album : String) :
    ∀ (rs : List ITunesRec) (st : MatchSt) (ps : List ITunesRec),
      ((st.best = none ∧ ps = [] ∧ st.best_score = -1) ∨
        (∃ r balb, st.best = some (r, balb) ∧ r ∈ ps ∧
          st.best_score = score_of artist album r ∧
          balb = alb_score_of album r ∧
          (∀ r' ∈ ps, score_of artist album r' <
            st.best_score + ps.length * (1/1000000)))) →
      (((rs.foldl (bmStep artist album) st).best = none ∧
          ps ++ rs.filter surviving = [] ∧
          (rs.foldl (bmStep artist album) st).best_score = -1) ∨
        (∃ r balb, (rs.foldl (bmStep artist album) st).best = some (r, balb) ∧
          r ∈ ps ++ rs.filter surviving ∧
          (rs.foldl (bmStep artist album) st).best_score =
            score_of artist album r ∧
          balb = alb_score_of album r ∧
          (∀ r' ∈ ps ++ rs.filter surviving, score_of artist album r' <
            (rs.foldl (bmStep artist album) st).best_score +
              (ps ++ rs.filter surviving).length * (1/1000000)))) := by
  intro rs
  induction rs with
  | nil =>
    intro st ps hinv
    simpa using hinv
  | cons x rs' ih =>
    intro st ps hinv
    rw [List.foldl_cons]
    by_cases hs : surviving x
    case neg =>
      have hstep : bmStep artist album st x = st := by
        unfold bmStep
        rw [if_neg hs]
      have hfil : (x :: rs').filter surviving = rs'.filter surviving := by
        simp [List.filter_cons, hs]
      rw [hstep, hfil]
      exact ih st ps hinv
    case pos =>
      have hfil : (x :: rs').filter surviving = x :: rs'.filter surviving := by
        simp [List.filter_cons, hs]
      have hx0 : 0 ≤ score_of artist album x := score_of_nonneg artist album x
      by_cases hc : st.best_score < score_of artist album x ∨
          (|score_of artist album x - st.best_score| < 1/1000000 ∧
            (match st.best with | some p => p.2 | none => 0) <
              alb_score_of album x)
      case pos =>
        have hstep : bmStep artist album st x =
            ⟨some (x, alb_score_of album x), score_of artist album x⟩ := by
          unfold bmStep
          rw [if_pos hs, if_pos hc]
        rw [hstep, hfil]
        have harr : ps ++ x :: rs'.filter surviving =
            (ps ++ [x]) ++ rs'.filter surviving := by simp
        rw [harr]
        refine ih _ (ps ++ [x]) (Or.inr ⟨x, alb_score_of album x, rfl,
          by simp, rfl, rfl, ?_⟩)
        intro r' hr'
        have hlen : (0 : ℚ) < (ps ++ [x]).length * (1/1000000) := by
          have : 0 < (ps ++ [x]).length := by simp
          have hq : (1 : ℚ) ≤ ((ps ++ [x]).length : ℚ) := by exact_mod_cast this
          nlinarith
        rcases List.mem_append.mp hr' with hmem | hmem
        · rcases hinv with ⟨_, rfl, _⟩ | ⟨r0, balb0, hb, hr0, hsc, _, hbnd⟩
          · simp at hmem
          · have hold := hbnd r' hmem
            have hrel : st.best_score < score_of artist album x + 1/1000000 := by
              rcases hc with hlt | ⟨habs, _⟩
              · linarith
              · have := (abs_sub_lt_iff.mp habs).2
                linarith
            have hlps : ((ps ++ [x]).length : ℚ) = (ps.length : ℚ) + 1 := by
              have hl : (ps ++ [x]).length = ps.length + 1 := by simp
              rw [hl]
              push_cast
              ring
            rw [hlps]
            linarith
        · have : r' = x := by simpa using hmem
          subst this
          linarith
      case neg =>
        have hstep : bmStep artist album st x = st := by
          unfold bmStep
          rw [if_pos hs, if_neg hc]
        rw [hstep, hfil]
        have harr : ps ++ x :: rs'.filter surviving =
            (ps ++ [x]) ++ rs'.filter surviving := by simp
        rw [harr]
        rcases hinv with ⟨hbn, rfl, hbs⟩ | ⟨r0, balb0, hb, hr0, hsc, hbalb, hbnd⟩
        · exfalso
          apply hc
          left
          rw [hbs]
          linarith
        · refine ih _ (ps ++ [x]) (Or.inr ⟨r0, balb0, hb, by simp [hr0], hsc,
            hbalb, ?_⟩)
          intro r' hr'
          have hnlt : score_of artist album x ≤ st.best_score := by
            by_contra hcon
            exact hc (Or.inl (by linarith))
          have hlen : (ps.length : ℚ) ≤ ((ps ++ [x]).length : ℚ) := by
            push_cast [List.length_append]
            linarith
          rcases List.mem_append.mp hr' with hmem | hmem
          · have hold := hbnd r' hmem
            have hmono : (ps.length : ℚ) * (1/1000000) ≤
                ((ps ++ [x]).length : ℚ) * (1/1000000) := by nlinarith
            linarith
          · have hrx : r' = x := by simpa using hmem
            have hpos : (0 : ℚ) < ((ps ++ [x]).length : ℚ) * (1/1000000) := by
              have h1 : 0 < (ps ++ [x]).length := by simp
              have hq : (1 : ℚ) ≤ ((ps ++ [x]).length : ℚ) := by exact_mod_cast h1
              nlinarith
            rw [hrx]
            linarith

/-- C4 (amended): `best_album_match` scores each surviving record as
`0.7*album_similarity + 0.3*artist_similarity` and scans left to right,
replacing the incumbent when a record scores strictly higher — or within
`1e-6` of the incumbent with strictly higher album similarity, which can
select a record that does not have the maximal score.  The record returned
is a surviving record with score at least `min_score = 0.55`, and every
surviving record scores less than the returned score plus `n/1e6`, where `n`
is the number of surviving records; `None` is returned only when every
surviving record scores below `0.55 + n/1e6`.  In particular, on the spec's
example (album/artist similarities 0.9/0.2 against 0.6/0.95, scores 0.69 and
0.705) it picks the second record. -/
theorem best_album_match_greedy :
    (best_album_match [exRec1, exRec2] exTgtArtist exTgtAlbum (11/20) =
      some exRec2) ∧
    (∀ (rs : List ITunesRec) (artist album : String) (ms : ℚ) (r : ITunesRec),
      best_album_match rs artist album ms = some r →
      r ∈ rs.filter surviving ∧ ms ≤ score_of artist album r ∧
      ∀ r' ∈ rs.filter surviving,
        score_of artist album r' <
          score_of artist album r + (rs.filter surviving).length * (1/1000000)) ∧
    (∀ (rs : List ITunesRec) (artist album : String) (ms : ℚ),
      best_album_match rs artist album ms = none →
      ∀ r' ∈ rs.filter surviving,
        score_of artist album r' < ms + (rs.filter surviving).length * (1/1000000)) := by
  refine ⟨by decide!, ?_, ?_⟩
  · intro rs artist album ms r h
    have hspec := bmStep_fold_spec artist album rs ⟨none, -1⟩ []
      (Or.inl ⟨rfl, rfl, rfl⟩)
    simp only [best_album_match] at h
    rcases hspec with ⟨hbn, _, _⟩ | ⟨r0, balb0, hb, hr0, hsc, _, hbnd⟩
    · rw [hbn] at h
      cases h
    · rw [hb] at h
      replace h : (if ms ≤ (List.foldl (bmStep artist album) ⟨none, -1⟩ rs).best_score
          then some r0 else none) = some r := h
      by_cases hms : ms ≤ (List.foldl (bmStep artist album) ⟨none, -1⟩ rs).best_score
      · rw [if_pos hms] at h
        obtain rfl : r0 = r := by cases h; rfl
        simp only [List.nil_append] at hr0 hbnd
        rw [hsc] at hms hbnd
        exact ⟨hr0, hms, hbnd⟩
      · rw [if_neg hms] at h
        cases h
  · intro rs artist album ms h
    have hspec := bmStep_fold_spec artist album rs ⟨none, -1⟩ []
      (Or.inl ⟨rfl, rfl, rfl⟩)
    simp only [best_album_match] at h
    rcases hspec with ⟨hbn, hemp, _⟩ | ⟨r0, balb0, hb, hr0, hsc, _, hbnd⟩
    · simp only [List.nil_append] at hemp
      rw [hemp]
      intro r' hr'
      cases hr'
    · rw [hb] at h
      replace h : (if ms ≤ (List.foldl (bmStep artist album) ⟨none, -1⟩ rs).best_score
          then some r0 else none) = none := h
      by_cases hms : ms ≤ (List.foldl (bmStep artist album) ⟨none, -1⟩ rs).best_score
      · rw [if_pos hms] at h
        cases h
      · rw [if_neg hms] at h
        simp only [List.nil_append] at hbnd
        intro r' hr'
        have := hbnd r' hr'
        have hlt : (List.foldl (bmStep artist album) ⟨none, -1⟩ rs).best_score < ms := by
          linarith [not_le.mp hms]
        have hnn : (0 : ℚ) ≤ ((rs.filter surviving).length : ℚ) * (1/1000000) := by
          positivity
        linarith

theorem best_album_match_greedy_witness :
    exRec2 ∈ [exRec1, exRec2].filter surviving ∧
    (11/20 : ℚ) ≤ score_of exTgtArtist exTgtAlbum exRec2 ∧
    ∀ r' ∈ [exRec1, exRec2].filter surviving,
      score_of exTgtArtist exTgtAlbum r' <
        score_of exTgtArtist exTgtAlbum exRec2 +
          ([exRec1, exRec2].filter surviving).length * (1/1000000) :=
  best_album_match_greedy.2.1 [exRec1, exRec2] exTgtArtist exTgtAlbum (11/20)
    exRec2 (by decide!)

/-! ## C2 — which outcomes count as skips -/

/-- Counterexample to C2 as stated: an album whose processing ends with the
`no accessible artwork` outcome is counted under the `errors` counter, not
under `skipped` — its message is itself one of the error keywords of source
line 583. -/
theorem no_accessible_artwork_counted_error :
    (process_album noArtOracle "a" "b" ⟨false, false⟩ false false).2.1 =
      "No accessible artwork: a / b" ∧
    (process_album noArtOracle "a" "b" ⟨false, false⟩ false false).1 = false ∧
    classify_iteration false "No accessible artwork: a / b" = .errors ∧
    Counter.errors ≠ Counter.skipped := by decide!

/-- C2 (amended): the `no confident match` outcome is counted under `skipped`
provided its message (which embeds the folder names) contains no error
keyword, while the `no accessible artwork` outcome is always counted under
`errors`, because its message text contains the keyword
`"no accessible artwork"` itself. -/
theorem skip_vs_error_classification :
    (∀ artist album : String,
      (error_keywords.any (fun k => containsSub k.data
        (lowerList ("No good match: " ++ artist ++ " / " ++ album).data))) = false →
      classify_iteration false ("No good match: " ++ artist ++ " / " ++ album) =
        .skipped) ∧
    (∀ artist album : String,
      classify_iteration false
        ("No accessible artwork: " ++ artist ++ " / " ++ album) = .errors) := by
  constructor
  · intro artist album h
    simp only [classify_iteration]
    rw [h]
    simp
  · intro artist album
    have h1 : lowerList "No accessible artwork: ".data =
        "no accessible artwork".data ++ ": ".data := by decide
    have hd : ("No accessible artwork: " ++ artist ++ " / " ++ album).data =
        "No accessible artwork: ".data ++ (artist.data ++ (" / ".data ++ album.data)) := by
      simp [List.append_assoc]
    have key : containsSub "no accessible artwork".data
        (lowerList ("No accessible artwork: " ++ artist ++ " / " ++ album).data) = true := by
      apply containsSub_of_prefix
      have h2 : lowerList ("No accessible artwork: " ++ artist ++ " / " ++ album).data =
          "no accessible artwork".data ++
            (": ".data ++ lowerList (artist.data ++ (" / ".data ++ album.data))) := by
        rw [hd]
        simp only [lowerList, List.map_append] at h1 ⊢
        rw [h1, List.append_assoc]
      rw [h2]
      exact isPrefixOf_append_self _ _
    have hany : (error_keywords.any (fun k => containsSub k.data
        (lowerList ("No accessible artwork: " ++ artist ++ " / " ++ album).data))) = true := by
      simp only [error_keywords, List.any_cons, List.any_nil, Bool.or_eq_true]
      exact Or.inr (Or.inr (Or.inl key))
    simp only [classify_iteration]
    rw [hany]
    simp

theorem skip_vs_error_classification_witness :
    classify_iteration false ("No good match: " ++ "aa" ++ " / " ++ "bb") =
      .skipped ∧
    classify_iteration false ("No accessible artwork: " ++ "a" ++ " / " ++ "b") =
      .errors :=
  ⟨skip_vs_error_classification.1 "aa" "bb" (by decide),
   skip_vs_error_classification.2 "a" "b"⟩

theorem build_upscaled_urls_shape_witness :
    build_upscaled_urls "a/100x100bb.jpg" =
      PROBE_SIZES.map (fun sz =>
        String.mk "a".data ++ "/" ++ sz ++ String.mk "bb".data ++
          String.mk [] ++ "." ++ String.mk "jpg".data) ∧
    (build_upscaled_urls "noslash").length = 15 := by
  constructor
  · exact (build_upscaled_urls_shape "a/100x100bb.jpg").2.2.2.2
      "a".data "bb".data [] "jpg".data (by decide!)
  · exact (build_upscaled_urls_shape "noslash").1

end Mz
